import Mathlib

/-!
# Quadrature encoder sampler (`dzl_encoders.h`)

A shallow embedding of `src/arduino_code/digitizer2_2/dzl_encoders.h`.

Target conventions (AVR, 16 MHz): `int` and `unsigned int` are 16 bits wide,
`long` is 32 bits wide and `unsigned char` is 8 bits wide.  Machine integers are
modelled by `Nat`/`Int` with the reductions written out.  Objects of class
`IQencoder` live in a heap `objs` addressed by a natural number (the value of
the `this` pointer); the registry `encoders` holds such addresses.

Interrupt handlers and foreground calls are modelled as atomic steps.  The values that
`digitalRead` returns are an input of a tick (the oracle `rd`); the calls that act on the
platform (`pinMode`, `sei`) are recorded in `effects`.  A tick returns `none` where the C
code would index outside `encoders` or `encref` or dereference a null slot.
-/

namespace DzlEncoders

/-! ## Settings -/

/-- Capacity of the registry (`#define MAX_ENCODERS 8`). -/
def MAX_ENCODERS : Nat := 8

/-- Edges per revolution (`#define STATES_PER_REV 2400`). -/
def STATES_PER_REV : Nat := 2400

/-- Rate in Hz used until the first accepted rate change (`#define DEFAULT_RATE 10000`). -/
def DEFAULT_RATE : Nat := 10000

/-! ## Machine integers -/

/-- Conversion to the 16-bit `unsigned int`. -/
def toUInt16 (n : Nat) : Nat := n % 65536

/-- Conversion to the 8-bit `unsigned char`. -/
def toUInt8 (n : Nat) : Nat := n % 256

/-- Conversion to the 16-bit two's complement `int`. -/
def toInt16 (x : Int) : Int := (x + 32768) % 65536 - 32768

/-! ## Transition table -/

/-- The rows of `volatile int encref[4][4]`; the table is never written. -/
def encrefTable : List (List Int) :=
  [ [0, 1, -1, 128],
    [-1, 0, 128, 1],
    [1, 128, 0, -1],
    [128, -1, 1, 0] ]

/-- The table entry `encref[old][input]`; `none` outside the 4 x 4 table. -/
def encref (old input : Nat) : Option Int :=
  encrefTable[old]?.bind fun row => row[input]?

/-- The value the source documents as "state machine error (impossible state change)". -/
def INVALID : Int := 128

/-! ## Data model -/

/-- The fields of `class IQencoder`. -/
structure IQencoder where
  encoderCounter : Int
  I_pin : Nat
  Q_pin : Nat
  state : Nat
deriving DecidableEq, Repr

/-- The pin modes passed to `pinMode`; the source only uses `INPUT_PULLUP`. -/
inductive PinMode where
  | INPUT_PULLUP
deriving DecidableEq, Repr

/-- The calls into the platform that change it, in the order they are made. -/
inductive Effect where
  | pinMode (pin : Nat) (mode : PinMode)
  | sei
deriving DecidableEq, Repr

/-- The globals of the file, the heap of encoder objects, the timer-1 registers the
file touches, and the record of platform calls.  `TIMSK1_OCIE1A` is the bit `OCIE1A`
of `TIMSK1`, `SREG_I` the global interrupt flag that `sei()` sets. -/
structure Sys where
  timerIncrement : Nat
  attachedEncoders : Nat
  encoders : List (Option Nat)
  objs : Nat → IQencoder
  TCCR1A : Nat
  TCCR1B : Nat
  TCCR1C : Nat
  TIMSK1_OCIE1A : Bool
  SREG_I : Bool
  OCR1A : Nat
  effects : List Effect

/-- The state after static initialisation and hardware reset: no encoder is attached,
every registry slot is a null pointer, the timer registers are cleared.  The contents
of the encoder objects are whatever `objs` says. -/
def init (objs : Nat → IQencoder) : Sys :=
  { timerIncrement := toUInt16 (16000000 / DEFAULT_RATE)
    attachedEncoders := 0
    encoders := List.replicate MAX_ENCODERS none
    objs := objs
    TCCR1A := 0
    TCCR1B := 0
    TCCR1C := 0
    TIMSK1_OCIE1A := false
    SREG_I := false
    OCR1A := 0
    effects := [] }

/-! ## Operations -/

/-- The function `int setEncoderRate(unsigned int rate)`: the argument is converted to
`unsigned int` at the call, the quotient is computed in `long` and converted to
`unsigned int` on assignment, the result is converted to `int`. -/
def setEncoderRate (rate0 : Nat) (s : Sys) : Int × Sys :=
  let rate := toUInt16 rate0
  if rate ≤ 20000 ∧ rate ≥ 250 then
    (toInt16 (rate : Int), { s with timerIncrement := toUInt16 (16000000 / rate) })
  else
    (-1, s)

/-- The method `IQencoder::attach(unsigned char I, unsigned char Q)` called on the object
at address `this`. -/
def attach (this I Q : Nat) (s : Sys) : Sys :=
  let e : IQencoder :=
    { encoderCounter := 0, I_pin := toUInt8 I, Q_pin := toUInt8 Q, state := 0 }
  let s1 : Sys :=
    { s with
      objs := Function.update s.objs this e
      effects := s.effects ++
        [Effect.pinMode e.I_pin PinMode.INPUT_PULLUP, Effect.pinMode e.Q_pin PinMode.INPUT_PULLUP] }
  let s2 : Sys :=
    if s1.attachedEncoders < MAX_ENCODERS then
      { s1 with
        encoders := s1.encoders.set s1.attachedEncoders (some this)
        attachedEncoders := toUInt8 (s1.attachedEncoders + 1) }
    else s1
  if s2.attachedEncoders = 1 then
    { s2 with
      TCCR1A := 0
      TCCR1B := 1
      TCCR1C := 0
      TIMSK1_OCIE1A := true
      SREG_I := true
      effects := s2.effects ++ [Effect.sei] }
  else s2

/-- The 2-bit value the handler packs from the two line readings
(`input |= 0x02` when I is HIGH, `input |= 0x01` when Q is HIGH). -/
def packInput (iHigh qHigh : Bool) : Nat :=
  (0 ||| (if iHigh then 2 else 0)) ||| (if qHigh then 1 else 0)

/-- The body of the handler loop for registry slot `i`.  The reading `rd k pin` is what the
`k`-th `digitalRead` of the tick returns for `pin` (true for HIGH).  The result is `none`
when the slot index is outside the array, the slot is a null pointer, or the table index is
outside the table. -/
def sampleSlot (rd : Nat → Nat → Bool) (i : Nat) (s : Sys) : Option Sys :=
  match s.encoders[i]? with
  | some (some p) =>
    let e := s.objs p
    let input := packInput (rd (2 * i) e.I_pin) (rd (2 * i + 1) e.Q_pin)
    match encref e.state input with
    | some d =>
      some { s with
        objs := Function.update s.objs p
          { e with encoderCounter := toInt16 (e.encoderCounter + d), state := input } }
    | none => none
  | _ => none

/-- The handler loop from index `i` on with `n` iterations left
(`for (i = 0; i < attachedEncoders; i++)`; the body does not write `attachedEncoders`). -/
def sampleFrom (rd : Nat → Nat → Bool) : Nat → Nat → Sys → Option Sys
  | 0, _, s => some s
  | n + 1, i, s =>
    match sampleSlot rd i s with
    | some s1 => sampleFrom rd n (i + 1) s1
    | none => none

/-- The handler `SIGNAL(TIMER1_COMPA_vect)`: one tick of the sampler. -/
def TIMER1_COMPA_vect (rd : Nat → Nat → Bool) (s : Sys) : Option Sys :=
  sampleFrom rd s.attachedEncoders 0 { s with OCR1A := toUInt16 (s.OCR1A + s.timerIncrement) }

/-! ## Angle conversion

The four conversion methods compute in floating point; on the target `double` has the
same 32-bit format as `float`.  A floating-point value is modelled by the rational number
it stands for.

`setDegrees` and `getDegrees` are embedded with every operation followed by the rounding
of the 32-bit format, `roundF32` (round to nearest, ties to even, with the subnormal
range).  Overflow to infinity is not modelled: the only value that can overflow is the
product in `setDegrees`, and its conversion to `int` has no defined result either way.

`setRadians` and `getRadians` use the constant `M_PI`, which comes from the platform's
`math.h`, not from this file; it is a parameter, and these two methods are embedded with
the operations carried out exactly.  At the argument `M_PI` itself the operations of
`setRadians` are exact in floating point too (`M_PI / M_PI` is 1, and 1 * 2 and 2 * 2400
are integers). -/

/-- Rounding of a rational to the nearest integer, ties to the even one. -/
def rne (x : ℚ) : Int :=
  let f : Int := ⌊x⌋
  if x - f < 1 / 2 then f
  else if 1 / 2 < x - f then f + 1
  else if f % 2 = 0 then f else f + 1

/-- Rounding to the 32-bit floating-point format (24-bit significand, least exponent
-126): the nearest multiple of 2^(e - 23), ties to even, where 2^e <= |q| < 2^(e + 1)
and e is at least -126. -/
def roundF32 (q : ℚ) : ℚ :=
  let e : Int := max (Int.log 2 |q|) (-126)
  (rne (q / (2 : ℚ) ^ (e - 23)) : ℚ) * (2 : ℚ) ^ (e - 23)

/-- Conversion of a floating-point value to `int` on assignment: the value is truncated
toward zero; there is no defined result (`none`) when the truncated value is not a 16-bit
`int`. -/
def floatToInt (q : ℚ) : Option Int :=
  let t : Int := if 0 ≤ q then ⌊q⌋ else ⌈q⌉
  if -32768 ≤ t ∧ t ≤ 32767 then some t else none

/-- The method `IQencoder::setDegrees(float deg)`:
`encoderCounter = (deg / 360.0) * (float)STATES_PER_REV`.  The argument is converted to
`float` at the call; the quotient and the product are rounded. -/
def setDegrees (deg0 : ℚ) (e : IQencoder) : Option IQencoder :=
  let deg := roundF32 deg0
  (floatToInt (roundF32 (roundF32 (deg / 360) * (STATES_PER_REV : ℚ)))).map fun k =>
    { e with encoderCounter := k }

/-- The method `IQencoder::setRadians(float rad)`:
`encoderCounter = (rad / M_PI * 2) * (float)STATES_PER_REV`, the operations carried out
exactly. -/
def setRadians (M_PI : ℚ) (rad : ℚ) (e : IQencoder) : Option IQencoder :=
  (floatToInt ((rad / M_PI * 2) * (STATES_PER_REV : ℚ))).map fun k =>
    { e with encoderCounter := k }

/-- The method `IQencoder::getRadians()`:
`(double)encoderCounter * M_PI * 2 / (double)STATES_PER_REV`, the operations carried out
exactly. -/
def getRadians (M_PI : ℚ) (e : IQencoder) : ℚ :=
  (e.encoderCounter : ℚ) * M_PI * 2 / (STATES_PER_REV : ℚ)

/-- The steps a run is made of. -/
inductive Op where
  | attach (this I Q : Nat)
  | tick (rd : Nat → Nat → Bool)
  | setRate (rate : Nat)

/-- One step of a run. -/
def step (s : Sys) : Op → Option Sys
  | Op.attach this I Q => some (attach this I Q s)
  | Op.tick rd => TIMER1_COMPA_vect rd s
  | Op.setRate rate => some (setEncoderRate rate s).2

/-- A run: the steps in order; `none` when a tick has no defined result. -/
def run : List Op → Sys → Option Sys
  | [], s => some s
  | op :: ops, s =>
    match step s op with
    | some s1 => run ops s1
    | none => none


/-! ## Specification-side definitions -/

/-- Successor of a 2-bit state along the forward Gray sequence 0 -> 1 -> 3 -> 2 -> 0. -/
def grayNext : Nat → Nat
  | 0 => 1
  | 1 => 3
  | 3 => 2
  | _ => 0

/-- A heap in which every encoder object is zero-filled (statically allocated objects). -/
def zeroObjs : Nat → IQencoder :=
  fun _ => { encoderCounter := 0, I_pin := 0, Q_pin := 0, state := 0 }

/-- Slot `i` holds the address of an encoder whose stored state is a table row. -/
def slotOk (s : Sys) (i : Nat) : Bool :=
  match s.encoders[i]? with
  | some (some p) => decide ((s.objs p).state < 4)
  | _ => false

/-- The registry is well formed: the occupancy is within the capacity, the array has
`MAX_ENCODERS` slots, and every slot below the occupancy is `slotOk`. -/
def WF (s : Sys) : Prop :=
  s.attachedEncoders ≤ MAX_ENCODERS ∧ s.encoders.length = MAX_ENCODERS ∧
  ∀ i, i < s.attachedEncoders → slotOk s i = true

instance (s : Sys) : Decidable (WF s) := by unfold WF; infer_instance

/-- The value read for slot `i`, as arithmetic: `2 * I + Q`. -/
def currentOf (rd : Nat → Nat → Bool) (i : Nat) (e : IQencoder) : Nat :=
  2 * (if rd (2 * i) e.I_pin then 1 else 0) + (if rd (2 * i + 1) e.Q_pin then 1 else 0)

/-- The encoder after one sample `current` has been folded in: the table entry for
(stored state, `current`) is added to the counter in 16-bit arithmetic and `current`
becomes the stored state.  (A pair outside the table adds 0 here; for 2-bit values the
entry always exists, see `encref_isSome`.) -/
def sampled (e : IQencoder) (current : Nat) : IQencoder :=
  { e with
    encoderCounter := toInt16 (e.encoderCounter + (encref e.state current).getD 0)
    state := current }

/-- The registry slots below the occupancy that hold the address `o`, in order. -/
def slotsOf (s : Sys) (o : Nat) : List Nat :=
  (List.range s.attachedEncoders).filter fun i => s.encoders[i]? = some (some o)

/-- The number of forward steps in a sample sequence read from stored state `p`, when every
sample equals the state before it or its successor in the forward Gray sequence; `none`
when some sample is neither. -/
def forwardSteps : Nat → List Nat → Option Nat
  | _, [] => some 0
  | p, c :: cs =>
    if c = p then forwardSteps c cs
    else if c = grayNext p then (forwardSteps c cs).map (· + 1)
    else none

/-- The samples the handler takes of the encoder at address `o` over the ticks `rds`, in the
order it takes them (one per tick and per registry slot that points to `o`). -/
def samplesOf (s : Sys) (o : Nat) (rds : List (Nat → Nat → Bool)) : List Nat :=
  rds.flatMap fun rd => (slotsOf s o).map fun j => currentOf rd j (s.objs o)

/-- Line readings under which every encoder samples the 2-bit value `c`: the reads of an
I line (even read numbers) return bit 1 of `c`, those of a Q line return bit 0. -/
def linesAt (c : Nat) : Nat → Nat → Bool :=
  fun k _ => if k % 2 = 0 then decide (2 ≤ c % 4) else decide (c % 2 = 1)

/-- The number of `attach` calls in a run. -/
def attachCount : List Op → Nat
  | [] => 0
  | Op.attach _ _ _ :: ops => attachCount ops + 1
  | _ :: ops => attachCount ops

/-- The number of times the sampler has been started: the `sei()` calls on record (the call
that ends the start-up block of `attach`). -/
def samplerStarts (s : Sys) : Nat := s.effects.count Effect.sei

/-- The sampler is running: timer 1 is clocked, its compare-A interrupt is enabled and
interrupts are enabled globally. -/
def Running (s : Sys) : Prop :=
  s.TCCR1B = 1 ∧ s.TIMSK1_OCIE1A = true ∧ s.SREG_I = true

instance (s : Sys) : Decidable (Running s) := by unfold Running; infer_instance

/-- The state agrees with a history of `k` attach calls since reset. -/
def Tracks (k : Nat) (s : Sys) : Prop :=
  WF s ∧ s.attachedEncoders = min k MAX_ENCODERS ∧ samplerStarts s = min k 1 ∧
  (0 < k → Running s) ∧ (k = 0 → s.TIMSK1_OCIE1A = false)

/-- Eight attach calls, of the objects 0 to 7 on the pins (0,1), (2,3), ..., (14,15). -/
def eightAttaches : List Op :=
  (List.range 8).map fun k => Op.attach k (2 * k) (2 * k + 1)

/-- The rate in force after a run, read off the return values of the code: `r` at first,
then the value returned by the latest `setEncoderRate` call that did not return -1. -/
def acceptedRate : List Op → Sys → Nat → Nat
  | [], _, r => r
  | op :: ops, s, r =>
    match step s op with
    | some s1 =>
      acceptedRate ops s1
        (match op with
         | Op.setRate rate =>
           if (setEncoderRate rate s).1 = -1 then r else ((setEncoderRate rate s).1).toNat
         | _ => r)
    | none => r

/-- The addresses of the encoders on which a run calls `attach`, in call order. -/
def attachedObjs : List Op → List Nat
  | [] => []
  | Op.attach this _ _ :: ops => this :: attachedObjs ops
  | _ :: ops => attachedObjs ops

/-- Position of a 2-bit state in the forward Gray cycle: 0, 1, 3, 2 are at 0, 1, 2, 3. -/
def phi : Nat → Int
  | 0 => 0
  | 1 => 1
  | 3 => 2
  | _ => 3

/-- A sample sequence read from stored state `p` has no diagonal transition: every sample
is a 2-bit value other than `3 - q`, where `q` is the state before it. -/
def noDiagonal : Nat → List Nat → Bool
  | _, [] => true
  | p, c :: cs => decide (c < 4) && decide (c ≠ 3 - p) && noDiagonal c cs

/-- The sum of the table entries along a path of states (0 for a pair outside the table). -/
def pathDelta : List Nat → Int
  | [] => 0
  | [_] => 0
  | a :: b :: rest => (encref a b).getD 0 + pathDelta (b :: rest)

/-- The way back along a path: for stored state `p` and samples s1, ..., sn the samples
s(n-1), ..., s1, p that lead from sn back to `p`. -/
def backPath (p : Nat) (cs : List Nat) : List Nat :=
  (p :: cs).reverse.tail

/-! ## Supporting lemmas -/

theorem packInput_eq (a b : Bool) :
    packInput a b = 2 * (if a then 1 else 0) + (if b then 1 else 0) := by
  cases a <;> cases b <;> rfl

theorem currentOf_lt (rd : Nat → Nat → Bool) (i : Nat) (e : IQencoder) : currentOf rd i e < 4 := by
  unfold currentOf; split <;> split <;> omega

theorem encref_isSome (p c : Nat) (hp : p < 4) (hc : c < 4) : ∃ d, encref p c = some d := by
  interval_cases p <;> interval_cases c <;> exact ⟨_, rfl⟩

theorem slotOk_iff (s : Sys) (i : Nat) :
    slotOk s i = true ↔ ∃ p, s.encoders[i]? = some (some p) ∧ (s.objs p).state < 4 := by
  unfold slotOk
  constructor
  · intro h
    split at h
    · next p hp => exact ⟨p, hp, by simpa using h⟩
    · simp at h
  · rintro ⟨p, hp, hlt⟩
    rw [hp]; simpa using hlt

theorem sampleSlot_eq (rd : Nat → Nat → Bool) (i : Nat) (s : Sys) (p : Nat)
    (hp : s.encoders[i]? = some (some p)) (hlt : (s.objs p).state < 4) :
    sampleSlot rd i s = some { s with
      objs := Function.update s.objs p (sampled (s.objs p) (currentOf rd i (s.objs p))) } := by
  obtain ⟨d, hd⟩ := encref_isSome (s.objs p).state (currentOf rd i (s.objs p)) hlt
    (currentOf_lt rd i _)
  unfold sampleSlot
  simp only [hp, packInput_eq]
  have hc : 2 * (if rd (2 * i) (s.objs p).I_pin = true then 1 else 0) +
      (if rd (2 * i + 1) (s.objs p).Q_pin = true then 1 else 0) = currentOf rd i (s.objs p) := rfl
  simp only [hc, hd, sampled, Option.getD_some]

theorem sampleFrom_spec (rd : Nat → Nat → Bool) :
    ∀ (n i : Nat) (s : Sys), (∀ j, i ≤ j → j < i + n → slotOk s j = true) →
      ∃ objs1, sampleFrom rd n i s = some { s with objs := objs1 } ∧
        (∀ o, objs1 o =
          ((List.range' i n).filter fun j => s.encoders[j]? = some (some o)).foldl
            (fun e j => sampled e (currentOf rd j e)) (s.objs o)) ∧
        (∀ p, (s.objs p).state < 4 → (objs1 p).state < 4) := by
  intro n
  induction n with
  | zero =>
    intro i s _
    exact ⟨s.objs, rfl, fun o => by simp, fun p h => h⟩
  | succ n ih =>
    intro i s h
    obtain ⟨p, hp, hlt⟩ := (slotOk_iff s i).1 (h i (le_refl _) (by omega))
    have hs := sampleSlot_eq rd i s p hp hlt
    have hkeep : ∀ q, (s.objs q).state < 4 →
        ((Function.update s.objs p (sampled (s.objs p) (currentOf rd i (s.objs p)))) q).state < 4 := by
      intro q hq
      by_cases hqp : q = p
      · subst hqp
        simp only [Function.update_same, sampled]
        exact currentOf_lt rd i _
      · simp only [Function.update_noteq hqp]; exact hq
    obtain ⟨objs1, h1, h2, h3⟩ := ih (i + 1)
      { s with objs := Function.update s.objs p (sampled (s.objs p) (currentOf rd i (s.objs p))) }
      (by
        intro j hj1 hj2
        obtain ⟨q, hq, hqlt⟩ := (slotOk_iff s j).1 (h j (by omega) (by omega))
        exact (slotOk_iff _ j).2 ⟨q, hq, hkeep q hqlt⟩)
    dsimp only at h1 h2 h3
    refine ⟨objs1, ?_, ?_, fun q hq => h3 q (hkeep q hq)⟩
    · simp only [sampleFrom, hs]; exact h1
    · intro o
      rw [h2 o, List.range'_succ, List.filter_cons]
      by_cases hop : o = p
      · subst hop
        simp only [hp, decide_True, if_true, List.foldl_cons, Function.update_same]
      · have hne : ¬ (s.encoders[i]? = some (some o)) := by
          rw [hp]; intro hc; simp at hc; exact hop hc.symm
        simp only [hne, decide_False, Function.update_noteq hop]
        rfl


theorem tick_spec (rd : Nat → Nat → Bool) (s : Sys) (h : WF s) :
    ∃ objs1, TIMER1_COMPA_vect rd s =
        some { s with OCR1A := toUInt16 (s.OCR1A + s.timerIncrement), objs := objs1 } ∧
      (∀ o, objs1 o =
        (slotsOf s o).foldl (fun e j => sampled e (currentOf rd j e)) (s.objs o)) ∧
      (∀ p, (s.objs p).state < 4 → (objs1 p).state < 4) := by
  obtain ⟨objs1, h1, h2, h3⟩ := sampleFrom_spec rd s.attachedEncoders 0
    { s with OCR1A := toUInt16 (s.OCR1A + s.timerIncrement) }
    (by
      intro j _ hj
      obtain ⟨q, hq, hqlt⟩ := (slotOk_iff s j).1 (h.2.2 j (by omega))
      exact (slotOk_iff _ j).2 ⟨q, hq, hqlt⟩)
  dsimp only at h1 h2 h3
  refine ⟨objs1, h1, ?_, h3⟩
  intro o
  rw [h2 o, slotsOf, List.range_eq_range']

theorem WF_tick (rd : Nat → Nat → Bool) (s : Sys) (h : WF s) :
    ∃ s1, TIMER1_COMPA_vect rd s = some s1 ∧ WF s1 := by
  obtain ⟨objs1, h1, _, h3⟩ := tick_spec rd s h
  refine ⟨_, h1, h.1, h.2.1, ?_⟩
  intro i hi
  obtain ⟨q, hq, hqlt⟩ := (slotOk_iff s i).1 (h.2.2 i hi)
  exact (slotOk_iff _ i).2 ⟨q, hq, h3 q hqlt⟩

theorem WF_init (objs : Nat → IQencoder) : WF (init objs) := by
  refine ⟨Nat.zero_le _, by simp [init], ?_⟩
  intro i hi
  simp [init] at hi

theorem WF_setEncoderRate (rate : Nat) (s : Sys) (h : WF s) : WF (setEncoderRate rate s).2 := by
  unfold setEncoderRate
  dsimp only
  split
  · exact h
  · exact h

/-- The state `attach` leaves when the registry has room. -/
theorem attach_room (this I Q : Nat) (s : Sys) (h : s.attachedEncoders < MAX_ENCODERS) :
    attach this I Q s =
      (if s.attachedEncoders = 0 then
        { s with
          objs := Function.update s.objs this
            { encoderCounter := 0, I_pin := toUInt8 I, Q_pin := toUInt8 Q, state := 0 }
          encoders := s.encoders.set s.attachedEncoders (some this)
          attachedEncoders := s.attachedEncoders + 1
          TCCR1A := 0
          TCCR1B := 1
          TCCR1C := 0
          TIMSK1_OCIE1A := true
          SREG_I := true
          effects := s.effects ++
            [Effect.pinMode (toUInt8 I) PinMode.INPUT_PULLUP,
             Effect.pinMode (toUInt8 Q) PinMode.INPUT_PULLUP] ++ [Effect.sei] }
      else
        { s with
          objs := Function.update s.objs this
            { encoderCounter := 0, I_pin := toUInt8 I, Q_pin := toUInt8 Q, state := 0 }
          encoders := s.encoders.set s.attachedEncoders (some this)
          attachedEncoders := s.attachedEncoders + 1
          effects := s.effects ++
            [Effect.pinMode (toUInt8 I) PinMode.INPUT_PULLUP,
             Effect.pinMode (toUInt8 Q) PinMode.INPUT_PULLUP] }) := by
  have h8 : toUInt8 (s.attachedEncoders + 1) = s.attachedEncoders + 1 := by
    unfold toUInt8; unfold MAX_ENCODERS at h; omega
  unfold attach
  simp only [h, if_true, h8, Nat.add_left_eq_self]

/-- The state `attach` leaves when the registry has no room. -/
theorem attach_full (this I Q : Nat) (s : Sys) (h : MAX_ENCODERS ≤ s.attachedEncoders) :
    attach this I Q s =
      { s with
        objs := Function.update s.objs this
          { encoderCounter := 0, I_pin := toUInt8 I, Q_pin := toUInt8 Q, state := 0 }
        effects := s.effects ++
          [Effect.pinMode (toUInt8 I) PinMode.INPUT_PULLUP,
           Effect.pinMode (toUInt8 Q) PinMode.INPUT_PULLUP] } := by
  have h1 : ¬ s.attachedEncoders < MAX_ENCODERS := not_lt.2 h
  have h2 : ¬ s.attachedEncoders = 1 := by unfold MAX_ENCODERS at h; omega
  unfold attach
  simp only [h1, h2, if_false]

theorem WF_attach (this I Q : Nat) (s : Sys) (h : WF s) : WF (attach this I Q s) := by
  obtain ⟨hle, hlen, hslots⟩ := h
  have hobj : ∀ q, (s.objs q).state < 4 →
      ((Function.update s.objs this
        { encoderCounter := 0, I_pin := toUInt8 I, Q_pin := toUInt8 Q, state := 0 }) q).state < 4 := by
    intro q hq
    by_cases hqt : q = this
    · subst hqt; simp only [Function.update_same]; decide
    · simp only [Function.update_noteq hqt]; exact hq
  rcases Nat.lt_or_ge s.attachedEncoders MAX_ENCODERS with hlt | hge
  · have hslot : ∀ i, i < s.attachedEncoders + 1 → ∃ p,
        (s.encoders.set s.attachedEncoders (some this))[i]? = some (some p) ∧
        ((Function.update s.objs this
          { encoderCounter := 0, I_pin := toUInt8 I, Q_pin := toUInt8 Q, state := 0 }) p).state < 4 := by
      intro i hi
      by_cases hin : i = s.attachedEncoders
      · subst hin
        refine ⟨this, ?_, ?_⟩
        · rw [List.getElem?_set_self (by omega)]
        · simp only [Function.update_same]; decide
      · obtain ⟨q, hq, hqlt⟩ := (slotOk_iff s i).1 (hslots i (by omega))
        refine ⟨q, ?_, hobj q hqlt⟩
        rw [List.getElem?_set_ne (fun hc => hin hc.symm)]; exact hq
    rw [attach_room this I Q s hlt]
    split
    · refine ⟨by dsimp only; omega, by dsimp only; simpa using hlen, ?_⟩
      intro i hi
      exact (slotOk_iff _ i).2 (hslot i hi)
    · refine ⟨by dsimp only; omega, by dsimp only; simpa using hlen, ?_⟩
      intro i hi
      exact (slotOk_iff _ i).2 (hslot i hi)
  · rw [attach_full this I Q s hge]
    refine ⟨hle, hlen, ?_⟩
    intro i hi
    obtain ⟨q, hq, hqlt⟩ := (slotOk_iff s i).1 (hslots i hi)
    exact (slotOk_iff _ i).2 ⟨q, hq, hobj q hqlt⟩

theorem WF_step (s : Sys) (op : Op) (h : WF s) : ∃ s1, step s op = some s1 ∧ WF s1 := by
  cases op with
  | attach this I Q => exact ⟨_, rfl, WF_attach this I Q s h⟩
  | tick rd => exact WF_tick rd s h
  | setRate rate => exact ⟨_, rfl, WF_setEncoderRate rate s h⟩

theorem run_append (ops1 ops2 : List Op) (s s1 : Sys) (h : run ops1 s = some s1) :
    run (ops1 ++ ops2) s = run ops2 s1 := by
  induction ops1 generalizing s with
  | nil => simp only [run, Option.some.injEq] at h; subst h; rfl
  | cons op ops ih =>
    simp only [run, List.cons_append] at h ⊢
    cases hs : step s op with
    | none => rw [hs] at h; simp at h
    | some s2 => rw [hs] at h; exact ih s2 h

theorem WF_run (ops : List Op) (s : Sys) (h : WF s) : ∃ s1, run ops s = some s1 ∧ WF s1 := by
  induction ops generalizing s with
  | nil => exact ⟨s, rfl, h⟩
  | cons op ops ih =>
    obtain ⟨s1, h1, hw⟩ := WF_step s op h
    obtain ⟨s2, h2, hw2⟩ := ih s1 hw
    exact ⟨s2, by simp only [run, h1, h2], hw2⟩

theorem encref_none_of_ge (p c : Nat) (h : 4 ≤ c) : encref p c = none := by
  rcases p with _ | _ | _ | _ | p <;> simp [encref, encrefTable, h]

theorem setEncoderRate_cases (rate : Nat) (s : Sys) :
    (250 ≤ toUInt16 rate ∧ toUInt16 rate ≤ 20000 ∧
      setEncoderRate rate s =
        ((toUInt16 rate : Int), { s with timerIncrement := 16000000 / toUInt16 rate })) ∨
    ((toUInt16 rate < 250 ∨ 20000 < toUInt16 rate) ∧ setEncoderRate rate s = (-1, s)) := by
  by_cases hc : toUInt16 rate ≤ 20000 ∧ toUInt16 rate ≥ 250
  · left
    have h3 : 16000000 / toUInt16 rate < 65536 := by
      rw [Nat.div_lt_iff_lt_mul (by omega)]; omega
    have h4 : toUInt16 (16000000 / toUInt16 rate) = 16000000 / toUInt16 rate := by
      show _ % 65536 = _
      exact Nat.mod_eq_of_lt h3
    have h5 : toInt16 (toUInt16 rate : Int) = (toUInt16 rate : Int) := by
      unfold toInt16; omega
    refine ⟨hc.2, hc.1, ?_⟩
    simp only [setEncoderRate, hc, and_self, if_true, h4, h5]
  · right
    refine ⟨by omega, ?_⟩
    simp only [setEncoderRate, hc, if_false]

theorem rate_bounds (r : Nat) (hlo : 250 ≤ r) (hhi : r ≤ 20000) :
    800 ≤ 16000000 / r ∧ 16000000 / r ≤ 64000 := by
  constructor
  · rw [Nat.le_div_iff_mul_le (by omega)]; omega
  · have : 16000000 / r < 64001 := by
      rw [Nat.div_lt_iff_lt_mul (by omega)]; omega
    omega

/-! ## Rate configuration (C1, C2) -/

/-- C1 as stated fails: 65786 is not in [250, 20000], yet the argument reaches the function
as the 16-bit value 250 and is accepted: the call returns 250, not -1, and sets
`timerIncrement` to 64000. -/
theorem setEncoderRate_accepts_wrapped :
    ¬ (250 ≤ 65786 ∧ 65786 ≤ 20000) ∧
    (setEncoderRate 65786 (init zeroObjs)).1 = 250 ∧
    (setEncoderRate 65786 (init zeroObjs)).1 ≠ -1 ∧
    (setEncoderRate 65786 (init zeroObjs)).2.timerIncrement = 64000 := by
  decide

/-- C1 amended: `setEncoderRate` accepts exactly the arguments whose 16-bit value (the
argument modulo 65536) is in [250, 20000]: the return value differs from -1 if and only if
that value is in range.  It then returns that value and changes the state only by setting
`timerIncrement` to the integer quotient 16000000 / value, which lies in [800, 64000] and
which the conversion to the 16-bit `unsigned int` leaves as it is.  In particular every
rate with 250 <= rate <= 20000 is accepted and returned as it is. -/
theorem setEncoderRate_accepts_exactly (rate : Nat) (s : Sys) :
    ((setEncoderRate rate s).1 ≠ -1 ↔ 250 ≤ rate % 65536 ∧ rate % 65536 ≤ 20000) ∧
    (250 ≤ rate % 65536 → rate % 65536 ≤ 20000 →
      (setEncoderRate rate s).1 = ((rate % 65536 : Nat) : Int) ∧
      (setEncoderRate rate s).2 = { s with timerIncrement := 16000000 / (rate % 65536) } ∧
      800 ≤ 16000000 / (rate % 65536) ∧ 16000000 / (rate % 65536) ≤ 64000 ∧
      toUInt16 (16000000 / (rate % 65536)) = 16000000 / (rate % 65536)) ∧
    (250 ≤ rate → rate ≤ 20000 →
      (setEncoderRate rate s).1 = (rate : Int) ∧
      (setEncoderRate rate s).1 ≠ -1 ∧
      (setEncoderRate rate s).2 = { s with timerIncrement := 16000000 / rate } ∧
      800 ≤ 16000000 / rate ∧ 16000000 / rate ≤ 64000 ∧
      toUInt16 (16000000 / rate) = 16000000 / rate) := by
  have hmod : toUInt16 rate = rate % 65536 := rfl
  have key : 250 ≤ rate % 65536 → rate % 65536 ≤ 20000 →
      (setEncoderRate rate s).1 = ((rate % 65536 : Nat) : Int) ∧
      (setEncoderRate rate s).2 = { s with timerIncrement := 16000000 / (rate % 65536) } ∧
      800 ≤ 16000000 / (rate % 65536) ∧ 16000000 / (rate % 65536) ≤ 64000 ∧
      toUInt16 (16000000 / (rate % 65536)) = 16000000 / (rate % 65536) := by
    intro hlo hhi
    have hb := rate_bounds (rate % 65536) hlo hhi
    rcases setEncoderRate_cases rate s with ⟨_, _, a3⟩ | ⟨a1, _⟩
    · rw [hmod] at a3
      refine ⟨by rw [a3], by rw [a3], hb.1, hb.2, ?_⟩
      show _ % 65536 = _
      exact Nat.mod_eq_of_lt (by omega)
    · rw [hmod] at a1; omega
  refine ⟨?_, key, ?_⟩
  · constructor
    · intro hne
      rcases setEncoderRate_cases rate s with ⟨a1, a2, _⟩ | ⟨_, a3⟩
      · rw [hmod] at a1 a2; exact ⟨a1, a2⟩
      · rw [a3] at hne; exact absurd rfl hne
    · rintro ⟨hlo, hhi⟩
      rw [(key hlo hhi).1]
      omega
  · intro hlo hhi
    have hsame : rate % 65536 = rate := Nat.mod_eq_of_lt (by omega)
    have h := key (by rw [hsame]; exact hlo) (by rw [hsame]; exact hhi)
    rw [hsame] at h
    exact ⟨h.1, by rw [h.1]; omega, h.2⟩

/-- C1 at the rate 1000 of the specification (the call returns 1000 and sets
`timerIncrement` to 16000) and at the argument 66536, which is accepted as 1000 too. -/
theorem setEncoderRate_accepts_exactly_witness :
    (250 ≤ 1000 ∧ 1000 ≤ 20000) ∧
    (setEncoderRate 1000 (init zeroObjs)).1 = 1000 ∧
    (setEncoderRate 1000 (init zeroObjs)).2.timerIncrement = 16000 ∧
    (setEncoderRate 66536 (init zeroObjs)).1 = 1000 ∧
    (setEncoderRate 100000 (init zeroObjs)).1 = -1 := by
  have h := (setEncoderRate_accepts_exactly 1000 (init zeroObjs)).2.2 (by decide) (by decide)
  have h2 := (setEncoderRate_accepts_exactly 66536 (init zeroObjs)).2.1 (by decide) (by decide)
  have h3 := (setEncoderRate_accepts_exactly 100000 (init zeroObjs)).1
  refine ⟨by decide, by simpa using h.1, by rw [h.2.2.1], by simpa using h2.1, ?_⟩
  by_contra hne
  exact absurd (h3.1 hne) (by decide)

/-- C2 as stated fails: 66536 is greater than 20000, yet the argument reaches the function
as the 16-bit value 1000, so the call returns 1000 instead of -1 and moves `timerIncrement`
from 1600 to 16000. -/
theorem setEncoderRate_wrapped_accepted :
    (66536 < 250 ∨ 66536 > 20000) ∧
    (setEncoderRate 66536 (init zeroObjs)).1 = 1000 ∧
    (setEncoderRate 66536 (init zeroObjs)).1 ≠ -1 ∧
    (init zeroObjs).timerIncrement = 1600 ∧
    (setEncoderRate 66536 (init zeroObjs)).2.timerIncrement = 16000 := by
  decide

/-- C2 amended: for every argument whose 16-bit value (the argument modulo 65536, which is
the argument itself below 65536) is less than 250 or greater than 20000, `setEncoderRate`
returns -1 and leaves the whole state, `timerIncrement` included, as it was. -/
theorem setEncoderRate_rejects (rate : Nat) (s : Sys)
    (h : rate % 65536 < 250 ∨ rate % 65536 > 20000) :
    (setEncoderRate rate s).1 = -1 ∧
    (setEncoderRate rate s).2 = s ∧
    (setEncoderRate rate s).2.timerIncrement = s.timerIncrement := by
  have hc : ¬ (toUInt16 rate ≤ 20000 ∧ toUInt16 rate ≥ 250) := by unfold toUInt16; omega
  simp only [setEncoderRate, hc, if_false, and_self]

/-- C2 amended, at the rates 100000, 249, 20001 and 0 of the claim. -/
theorem setEncoderRate_rejects_witness :
    (100000 % 65536 < 250 ∨ 100000 % 65536 > 20000) ∧
    (setEncoderRate 100000 (init zeroObjs)).1 = -1 ∧
    (setEncoderRate 100000 (init zeroObjs)).2.timerIncrement = 1600 ∧
    (setEncoderRate 249 (init zeroObjs)).1 = -1 ∧
    (setEncoderRate 20001 (init zeroObjs)).1 = -1 ∧
    (setEncoderRate 0 (init zeroObjs)).1 = -1 := by
  have h := setEncoderRate_rejects 100000 (init zeroObjs) (by decide)
  refine ⟨by decide, h.1, ?_, ?_, ?_, ?_⟩
  · rw [h.2.2]; decide
  · exact (setEncoderRate_rejects 249 (init zeroObjs) (by decide)).1
  · exact (setEncoderRate_rejects 20001 (init zeroObjs) (by decide)).1
  · exact (setEncoderRate_rejects 0 (init zeroObjs) (by decide)).1

/-! ## Transition table (C3, C4, C5) -/

/-- C3: for 2-bit states p and c forming a valid consecutive pair (c equal to p, or one the
successor of the other in the Gray sequence 0 -> 1 -> 3 -> 2 -> 0), `encref[p][c]` is one of
-1, 0, +1: it is 0 when c = p, +1 on each forward step and -1 on each reverse step. -/
theorem encref_valid_pairs (p c : Nat) (hp : p < 4) (hc : c < 4)
    (hv : c = p ∨ c = grayNext p ∨ p = grayNext c) :
    (encref p c = some (-1) ∨ encref p c = some 0 ∨ encref p c = some 1) ∧
    (c = p → encref p c = some 0) ∧
    (c = grayNext p → encref p c = some 1) ∧
    (p = grayNext c → encref p c = some (-1)) := by
  interval_cases p <;> interval_cases c <;> revert hv <;> decide

/-- C3 on the eight steps the claim lists: (0,1), (1,3), (3,2), (2,0) give +1 and
(0,2), (2,3), (3,1), (1,0) give -1. -/
theorem encref_valid_pairs_witness :
    encref 0 1 = some 1 ∧ encref 1 3 = some 1 ∧ encref 3 2 = some 1 ∧ encref 2 0 = some 1 ∧
    encref 0 2 = some (-1) ∧ encref 2 3 = some (-1) ∧ encref 3 1 = some (-1) ∧
    encref 1 0 = some (-1) ∧ encref 2 2 = some 0 :=
  ⟨(encref_valid_pairs 0 1 (by decide) (by decide) (by decide)).2.2.1 rfl,
   (encref_valid_pairs 1 3 (by decide) (by decide) (by decide)).2.2.1 rfl,
   (encref_valid_pairs 3 2 (by decide) (by decide) (by decide)).2.2.1 rfl,
   (encref_valid_pairs 2 0 (by decide) (by decide) (by decide)).2.2.1 rfl,
   (encref_valid_pairs 0 2 (by decide) (by decide) (by decide)).2.2.2 rfl,
   (encref_valid_pairs 2 3 (by decide) (by decide) (by decide)).2.2.2 rfl,
   (encref_valid_pairs 3 1 (by decide) (by decide) (by decide)).2.2.2 rfl,
   (encref_valid_pairs 1 0 (by decide) (by decide) (by decide)).2.2.2 rfl,
   (encref_valid_pairs 2 2 (by decide) (by decide) (by decide)).2.1 rfl⟩

/-- C4: for 2-bit states p and c, `encref[p][c]` is the INVALID value 128 exactly when
c = 3 - p (both bits flip), and every entry of the table is one of -1, 0, +1, 128. -/
theorem encref_invalid_iff_diagonal (p c : Nat) (hp : p < 4) (hc : c < 4) :
    (encref p c = some INVALID ↔ c = 3 - p) ∧
    (encref p c = some (-1) ∨ encref p c = some 0 ∨ encref p c = some 1 ∨
      encref p c = some INVALID) ∧
    INVALID = 128 := by
  interval_cases p <;> interval_cases c <;> decide

/-- C4 on the four diagonal pairs (0,3), (3,0), (1,2), (2,1). -/
theorem encref_invalid_iff_diagonal_witness :
    encref 0 3 = some 128 ∧ encref 3 0 = some 128 ∧ encref 1 2 = some 128 ∧
    encref 2 1 = some 128 :=
  ⟨(encref_invalid_iff_diagonal 0 3 (by decide) (by decide)).1.2 rfl,
   (encref_invalid_iff_diagonal 3 0 (by decide) (by decide)).1.2 rfl,
   (encref_invalid_iff_diagonal 1 2 (by decide) (by decide)).1.2 rfl,
   (encref_invalid_iff_diagonal 2 1 (by decide) (by decide)).1.2 rfl⟩

/-- C5 as stated fails: for the previous state 0 there are no two distinct current states
whose table entry is INVALID. -/
theorem encref_row_zero_single_invalid :
    ¬ ∃ c1 c2 : Nat, c1 ≠ c2 ∧ encref 0 c1 = some INVALID ∧ encref 0 c2 = some INVALID := by
  have key : ∀ c, encref 0 c = some INVALID → c = 3 := by
    intro c hc
    rcases Nat.lt_or_ge c 4 with h | h
    · interval_cases c <;> first | rfl | (revert hc; decide)
    · rw [encref_none_of_ge 0 c h] at hc; simp at hc
  rintro ⟨c1, c2, hne, h1, h2⟩
  exact hne ((key c1 h1).trans (key c2 h2).symm)

/-- C5 amended: for every previous state p in {0,1,2,3} there is exactly one current state
whose table entry is INVALID, namely c = 3 - p; the row of p holds INVALID once. -/
theorem encref_row_single_invalid (p : Nat) (hp : p < 4) :
    (∀ c, encref p c = some INVALID ↔ c = 3 - p) ∧
    (List.range 4).filter (fun c => encref p c = some INVALID) = [3 - p] := by
  refine ⟨?_, by interval_cases p <;> decide⟩
  intro c
  rcases Nat.lt_or_ge c 4 with h | h
  · interval_cases p <;> interval_cases c <;> decide
  · rw [encref_none_of_ge p c h]
    constructor
    · intro hc; simp at hc
    · intro hc; omega

/-- C5 amended, at the previous state 0: the only INVALID entry of its row is at 3. -/
theorem encref_row_single_invalid_witness :
    0 < 4 ∧ (encref 0 3 = some INVALID) ∧
    (List.range 4).filter (fun c => encref 0 c = some INVALID) = [3] :=
  ⟨by decide, ((encref_row_single_invalid 0 (by decide)).1 3).2 rfl,
   (encref_row_single_invalid 0 (by decide)).2⟩

/-! ## Lemmas on samples and forward walks -/

theorem toInt16_add (a b : Int) : toInt16 (toInt16 a + b) = toInt16 (a + b) := by
  unfold toInt16; omega

theorem toInt16_of_range (a : Int) (h1 : -32768 ≤ a) (h2 : a ≤ 32767) : toInt16 a = a := by
  unfold toInt16; omega

theorem state_lt_of_slot (s : Sys) (h : WF s) (o i : Nat) (hi : i ∈ slotsOf s o) :
    (s.objs o).state < 4 := by
  simp only [slotsOf, List.mem_filter, List.mem_range, decide_eq_true_eq] at hi
  obtain ⟨q, hq, hqlt⟩ := (slotOk_iff s i).1 (h.2.2 i hi.1)
  rw [hi.2] at hq
  simp only [Option.some.injEq] at hq
  subst hq
  exact hqlt

theorem grayNext_lt (p : Nat) : grayNext p < 4 := by
  unfold grayNext; split <;> decide

theorem grayNext_four (p : Nat) (hp : p < 4) : grayNext (grayNext (grayNext (grayNext p))) = p := by
  interval_cases p <;> rfl

theorem grayNext_iterate_four_mul (N p : Nat) (hp : p < 4) : grayNext^[4 * N] p = p := by
  induction N with
  | zero => rfl
  | succ N ih =>
    have : 4 * (N + 1) = 4 + 4 * N := by ring
    rw [this, Function.iterate_add_apply, ih]
    exact grayNext_four p hp

theorem toInt16_range (a : Int) : -32768 ≤ toInt16 a ∧ toInt16 a ≤ 32767 := by
  unfold toInt16; omega

theorem foldl_slots_eq (rd : Nat → Nat → Bool) (slots : List Nat) :
    ∀ e e0 : IQencoder, e.I_pin = e0.I_pin → e.Q_pin = e0.Q_pin →
      slots.foldl (fun e j => sampled e (currentOf rd j e)) e =
        (slots.map fun j => currentOf rd j e0).foldl sampled e := by
  induction slots with
  | nil => intro e e0 _ _; rfl
  | cons j slots ih =>
    intro e e0 hI hQ
    have hc : currentOf rd j e = currentOf rd j e0 := by
      unfold currentOf; rw [hI, hQ]
    simp only [List.foldl_cons, List.map_cons, hc]
    exact ih (sampled e (currentOf rd j e0)) e0 hI hQ

theorem foldl_sampled_pins (cs : List Nat) :
    ∀ e : IQencoder, (cs.foldl sampled e).I_pin = e.I_pin ∧
      (cs.foldl sampled e).Q_pin = e.Q_pin := by
  induction cs with
  | nil => intro e; exact ⟨rfl, rfl⟩
  | cons c cs ih => intro e; exact ih (sampled e c)

/-- A run of ticks from a well-formed state is defined, and each encoder object ends as
the fold of its samples. -/
theorem run_ticks_obj (o : Nat) :
    ∀ (rds : List (Nat → Nat → Bool)) (s : Sys), WF s →
      ∃ s1, run (rds.map Op.tick) s = some s1 ∧ WF s1 ∧
        s1.attachedEncoders = s.attachedEncoders ∧ s1.encoders = s.encoders ∧
        s1.objs o = (samplesOf s o rds).foldl sampled (s.objs o) := by
  intro rds
  induction rds with
  | nil => intro s h; exact ⟨s, rfl, h, rfl, rfl, rfl⟩
  | cons rd rds ih =>
    intro s h
    obtain ⟨objs1, h1, h2, h3⟩ := tick_spec rd s h
    have hwf1 : WF { s with OCR1A := toUInt16 (s.OCR1A + s.timerIncrement), objs := objs1 } := by
      refine ⟨h.1, h.2.1, ?_⟩
      intro j hj
      obtain ⟨q, hq, hqlt⟩ := (slotOk_iff s j).1 (h.2.2 j hj)
      exact (slotOk_iff _ j).2 ⟨q, hq, h3 q hqlt⟩
    obtain ⟨s2, hr, hwf2, ha, he, ho⟩ := ih _ hwf1
    refine ⟨s2, ?_, hwf2, ha, he, ?_⟩
    · simp only [List.map_cons, run, step, h1]; exact hr
    · have hobj : objs1 o =
          ((slotsOf s o).map fun j => currentOf rd j (s.objs o)).foldl sampled (s.objs o) := by
        rw [h2 o]; exact foldl_slots_eq rd (slotsOf s o) (s.objs o) (s.objs o) rfl rfl
      have hpins := foldl_sampled_pins
        ((slotsOf s o).map fun j => currentOf rd j (s.objs o)) (s.objs o)
      rw [← hobj] at hpins
      have hsame : samplesOf
          { s with OCR1A := toUInt16 (s.OCR1A + s.timerIncrement), objs := objs1 } o rds =
          rds.flatMap fun rd => (slotsOf s o).map fun j => currentOf rd j (s.objs o) := by
        unfold samplesOf currentOf
        show (rds.flatMap fun rd => (slotsOf s o).map fun j => _) = _
        simp only [hpins.1, hpins.2]
      rw [ho, hsame]
      show List.foldl sampled (objs1 o) _ = _
      rw [hobj]
      simp only [samplesOf, List.flatMap_cons, List.foldl_append]

/-- A forward walk folded into an encoder: the state moves by the number of forward steps
and the counter grows by that number in 16-bit arithmetic. -/
theorem foldl_sampled_forward :
    ∀ (cs : List Nat) (e : IQencoder) (m : Nat), e.state < 4 →
      (-32768 ≤ e.encoderCounter ∧ e.encoderCounter ≤ 32767) →
      forwardSteps e.state cs = some m →
      (cs.foldl sampled e).state = grayNext^[m] e.state ∧
      (cs.foldl sampled e).encoderCounter = toInt16 (e.encoderCounter + m) := by
  intro cs
  induction cs with
  | nil =>
    intro e m _ hk hw
    simp only [forwardSteps, Option.some.injEq] at hw
    subst hw
    refine ⟨rfl, ?_⟩
    simp only [List.foldl_nil, Nat.cast_zero, add_zero]
    exact (toInt16_of_range _ hk.1 hk.2).symm
  | cons c cs ih =>
    intro e m hp hk hw
    simp only [forwardSteps] at hw
    simp only [List.foldl_cons]
    by_cases hc : c = e.state
    · rw [if_pos hc] at hw
      have hd : encref e.state c = some 0 := by
        rw [hc]; generalize e.state = p at hp; interval_cases p <;> rfl
      have hk1 : (sampled e c).encoderCounter = toInt16 (e.encoderCounter + 0) := by
        simp only [sampled, hd, Option.getD_some]
      obtain ⟨h3, h4⟩ := ih (sampled e c) m (by show c < 4; rw [hc]; exact hp)
        (by rw [hk1]; exact toInt16_range _) hw
      refine ⟨?_, ?_⟩
      · rw [h3]; show grayNext^[m] c = _; rw [hc]
      · rw [h4, hk1, toInt16_add, add_zero]
    · rw [if_neg hc] at hw
      by_cases hn : c = grayNext e.state
      · rw [if_pos hn] at hw
        obtain ⟨m1, hm1, hm⟩ := Option.map_eq_some'.1 hw
        have hd : encref e.state c = some 1 := by
          rw [hn]; generalize e.state = p at hp; interval_cases p <;> rfl
        have hk1 : (sampled e c).encoderCounter = toInt16 (e.encoderCounter + 1) := by
          simp only [sampled, hd, Option.getD_some]
        obtain ⟨h3, h4⟩ := ih (sampled e c) m1 (by show c < 4; rw [hn]; exact grayNext_lt _)
          (by rw [hk1]; exact toInt16_range _) hm1
        refine ⟨?_, ?_⟩
        · rw [h3, ← hm, Function.iterate_succ_apply]; show grayNext^[m1] c = _; rw [hn]
        · rw [h4, hk1, toInt16_add, ← hm]
          push_cast
          rw [add_assoc, add_comm (1 : Int)]
      · rw [if_neg hn] at hw
        simp at hw

/-! ## The sampler tick (C6, C7) -/

/-- C6: on a well-formed state one tick is defined and leaves the registry, the occupancy
and `timerIncrement` as they were.  Every encoder object ends as the result of folding, over
the registry slots below the occupancy that point to it, in registry order, the step
"current = 2 * (I is HIGH) + (Q is HIGH); counter := counter + encref[state][current] in 16
bits; state := current".  So an object in no such slot is unchanged, and an object in one
slot takes exactly one step, whose table entry is 128 on a diagonal transition: the counter
then becomes the old counter plus 128 in 16-bit arithmetic, and the old counter plus 128
itself when that fits. -/
theorem tick_samples_each_slot (rd : Nat → Nat → Bool) (s : Sys) (h : WF s) :
    ∃ s1, TIMER1_COMPA_vect rd s = some s1 ∧
      s1.attachedEncoders = s.attachedEncoders ∧ s1.encoders = s.encoders ∧
      s1.timerIncrement = s.timerIncrement ∧
      (∀ o, s1.objs o =
        (slotsOf s o).foldl (fun e i => sampled e (currentOf rd i e)) (s.objs o)) ∧
      (∀ o, slotsOf s o = [] → s1.objs o = s.objs o) ∧
      (∀ o i, slotsOf s o = [i] →
        ∃ d, encref (s.objs o).state (currentOf rd i (s.objs o)) = some d ∧
          s1.objs o = { s.objs o with
            encoderCounter := toInt16 ((s.objs o).encoderCounter + d)
            state := currentOf rd i (s.objs o) } ∧
          (currentOf rd i (s.objs o) = 3 - (s.objs o).state →
            d = 128 ∧
            (s1.objs o).encoderCounter = toInt16 ((s.objs o).encoderCounter + 128) ∧
            (-32768 ≤ (s.objs o).encoderCounter → (s.objs o).encoderCounter + 128 ≤ 32767 →
              (s1.objs o).encoderCounter = (s.objs o).encoderCounter + 128))) := by
  obtain ⟨objs1, h1, h2, _⟩ := tick_spec rd s h
  refine ⟨_, h1, rfl, rfl, rfl, h2, ?_, ?_⟩
  · intro o ho
    show objs1 o = _
    rw [h2 o, ho]; rfl
  · intro o i ho
    have hp : (s.objs o).state < 4 := state_lt_of_slot s h o i (by rw [ho]; simp)
    obtain ⟨d, hd⟩ := encref_isSome (s.objs o).state (currentOf rd i (s.objs o)) hp
      (currentOf_lt rd i _)
    have hobj : objs1 o = { s.objs o with
        encoderCounter := toInt16 ((s.objs o).encoderCounter + d)
        state := currentOf rd i (s.objs o) } := by
      rw [h2 o, ho]
      simp only [List.foldl_cons, List.foldl_nil, sampled, hd, Option.getD_some]
    refine ⟨d, hd, hobj, ?_⟩
    intro hdiag
    have hd128 : d = 128 := by
      have hc := currentOf_lt rd i (s.objs o)
      rw [hdiag] at hd
      generalize (s.objs o).state = p at hp hd
      interval_cases p <;> simpa [encref, encrefTable] using hd.symm
    subst hd128
    refine ⟨rfl, by show (objs1 o).encoderCounter = _; rw [hobj], ?_⟩
    intro hlo hhi
    show (objs1 o).encoderCounter = _
    rw [hobj]
    exact toInt16_of_range _ (by omega) hhi

/-- C6 on a freshly attached encoder whose two lines both read HIGH: the sample is 3, the
transition from state 0 is diagonal, and the tick leaves the counter at 128 and the state
at 3. -/
theorem tick_samples_each_slot_witness :
    WF (attach 0 2 3 (init zeroObjs)) ∧
    ∃ s1, TIMER1_COMPA_vect (fun _ _ => true) (attach 0 2 3 (init zeroObjs)) = some s1 ∧
      (s1.objs 0).encoderCounter = 128 ∧ (s1.objs 0).state = 3 ∧
      s1.attachedEncoders = 1 := by
  have hwf : WF (attach 0 2 3 (init zeroObjs)) := by decide
  refine ⟨hwf, ?_⟩
  obtain ⟨s1, h1, h2, _, _, _, _, h3⟩ :=
    tick_samples_each_slot (fun _ _ => true) (attach 0 2 3 (init zeroObjs)) hwf
  obtain ⟨d, _, hobj, hdiag⟩ := h3 0 0 (by decide)
  have hd := hdiag (by decide)
  refine ⟨s1, h1, ?_, ?_, ?_⟩
  · rw [hd.2.2 (by decide) (by decide)]; decide
  · rw [hobj]
    show currentOf (fun _ _ => true) 0 ((attach 0 2 3 (init zeroObjs)).objs 0) = 3
    decide
  · rw [h2]; decide

/-- C7: take a well-formed state and any encoder object, with stored state s and 16-bit
counter k.  For every sequence of ticks in which each sample the handler takes of that
encoder equals the state before it or its forward Gray successor, and which makes 4 * N
forward steps in all, the run of those ticks is defined and leaves the encoder in state s
with counter k + 4 * N in 16-bit arithmetic (k + 4 * N itself when that fits). -/
theorem forward_rotation_no_loss (s : Sys) (o N : Nat) (rds : List (Nat → Nat → Bool))
    (h : WF s)
    (hk : -32768 ≤ (s.objs o).encoderCounter ∧ (s.objs o).encoderCounter ≤ 32767)
    (hwalk : forwardSteps (s.objs o).state (samplesOf s o rds) = some (4 * N)) :
    ∃ s1, run (rds.map Op.tick) s = some s1 ∧
      (s1.objs o).state = (s.objs o).state ∧
      (s1.objs o).encoderCounter = toInt16 ((s.objs o).encoderCounter + 4 * N) ∧
      ((s.objs o).encoderCounter + 4 * N ≤ 32767 →
        (s1.objs o).encoderCounter = (s.objs o).encoderCounter + 4 * N) := by
  obtain ⟨s1, h1, _, _, _, hobj⟩ := run_ticks_obj o rds s h
  have hfit : (s1.objs o).encoderCounter = toInt16 ((s.objs o).encoderCounter + 4 * N) →
      (s.objs o).encoderCounter + 4 * N ≤ 32767 →
      (s1.objs o).encoderCounter = (s.objs o).encoderCounter + 4 * N := by
    intro h4 hle
    rw [h4]; exact toInt16_of_range _ (by omega) hle
  cases hsl : slotsOf s o with
  | nil =>
    have hnil : samplesOf s o rds = [] := by
      unfold samplesOf; rw [hsl]; simp
    rw [hnil] at hwalk hobj
    simp only [forwardSteps, Option.some.injEq] at hwalk
    have hN : N = 0 := by omega
    subst hN
    have h4 : (s1.objs o).encoderCounter = toInt16 ((s.objs o).encoderCounter + 4 * (0 : Nat)) := by
      rw [hobj]; simp only [List.foldl_nil, Nat.cast_zero, mul_zero, add_zero]
      exact (toInt16_of_range _ hk.1 hk.2).symm
    exact ⟨s1, h1, by rw [hobj]; rfl, h4, hfit h4⟩
  | cons i rest =>
    have hp : (s.objs o).state < 4 := state_lt_of_slot s h o i (by rw [hsl]; simp)
    obtain ⟨h2, h3⟩ := foldl_sampled_forward (samplesOf s o rds) (s.objs o) (4 * N) hp hk hwalk
    have h4 : (s1.objs o).encoderCounter = toInt16 ((s.objs o).encoderCounter + 4 * N) := by
      rw [hobj, h3]; push_cast; rfl
    refine ⟨s1, h1, ?_, h4, hfit h4⟩
    rw [hobj, h2, grayNext_iterate_four_mul N _ hp]

/-- C7 on a freshly attached encoder sampled at 1, 1, 3, 2, 0 (one full line-cycle with a
repeated sample): the counter ends at 4 and the state at 0. -/
theorem forward_rotation_no_loss_witness :
    WF (attach 0 2 3 (init zeroObjs)) ∧
    samplesOf (attach 0 2 3 (init zeroObjs)) 0
      [linesAt 1, linesAt 1, linesAt 3, linesAt 2, linesAt 0] = [1, 1, 3, 2, 0] ∧
    ∃ s1, run ([linesAt 1, linesAt 1, linesAt 3, linesAt 2, linesAt 0].map Op.tick)
        (attach 0 2 3 (init zeroObjs)) = some s1 ∧
      (s1.objs 0).state = 0 ∧ (s1.objs 0).encoderCounter = 4 := by
  have hwf : WF (attach 0 2 3 (init zeroObjs)) := by decide
  obtain ⟨s1, h1, h2, _, h4⟩ := forward_rotation_no_loss (attach 0 2 3 (init zeroObjs)) 0 1
    [linesAt 1, linesAt 1, linesAt 3, linesAt 2, linesAt 0] hwf (by decide) (by decide)
  refine ⟨hwf, by decide, s1, h1, ?_, ?_⟩
  · rw [h2]; decide
  · rw [h4 (by decide)]; decide

/-! ## Lemmas on attach histories -/

theorem Tracks_init (objs : Nat → IQencoder) : Tracks 0 (init objs) :=
  ⟨WF_init objs, rfl, rfl, fun h => absurd h (lt_irrefl 0), fun _ => rfl⟩

theorem count_sei_pinModes (a b : Nat) :
    List.count Effect.sei
      [Effect.pinMode a PinMode.INPUT_PULLUP, Effect.pinMode b PinMode.INPUT_PULLUP] = 0 := by
  simp [List.count_cons]

theorem count_sei_single : List.count Effect.sei [Effect.sei] = 1 := by
  decide

theorem Tracks_attach (k this I Q : Nat) (s : Sys) (h : Tracks k s) :
    Tracks (k + 1) (attach this I Q s) := by
  obtain ⟨hwf, hn, hst, hrun, _⟩ := h
  refine ⟨WF_attach this I Q s hwf, ?_, ?_, ?_, fun hk => absurd hk (Nat.succ_ne_zero k)⟩
  · rcases Nat.lt_or_ge k MAX_ENCODERS with hlt | hge
    · have hk : s.attachedEncoders = k := by rw [hn]; exact Nat.min_eq_left (le_of_lt hlt)
      rw [attach_room this I Q s (by rw [hk]; exact hlt)]
      split <;> (dsimp only; rw [hk]; exact (Nat.min_eq_left hlt).symm)
    · have hk : s.attachedEncoders = MAX_ENCODERS := by rw [hn]; exact Nat.min_eq_right hge
      rw [attach_full this I Q s (le_of_eq hk.symm)]
      dsimp only
      rw [hk]; exact (Nat.min_eq_right (by omega)).symm
  · rcases Nat.lt_or_ge k MAX_ENCODERS with hlt | hge
    · have hk : s.attachedEncoders = k := by rw [hn]; exact Nat.min_eq_left (le_of_lt hlt)
      rw [attach_room this I Q s (by rw [hk]; exact hlt)]
      unfold samplerStarts at hst ⊢
      split
      · next h0 =>
        have hk0 : k = 0 := by omega
        subst hk0
        simp only [List.count_append, hst, count_sei_pinModes, count_sei_single]
        decide
      · next h0 =>
        have hk0 : 0 < k := by omega
        simp only [List.count_append, hst, count_sei_pinModes]
        omega
    · have hk : s.attachedEncoders = MAX_ENCODERS := by rw [hn]; exact Nat.min_eq_right hge
      rw [attach_full this I Q s (le_of_eq hk.symm)]
      unfold samplerStarts at hst ⊢
      simp only [List.count_append, hst, count_sei_pinModes]
      have h8 : 1 ≤ k := by unfold MAX_ENCODERS at hge; omega
      omega
  · intro _
    rcases Nat.lt_or_ge k MAX_ENCODERS with hlt | hge
    · have hk : s.attachedEncoders = k := by rw [hn]; exact Nat.min_eq_left (le_of_lt hlt)
      rw [attach_room this I Q s (by rw [hk]; exact hlt)]
      split
      · exact ⟨rfl, rfl, rfl⟩
      · next h0 => exact hrun (by omega)
    · have hk : s.attachedEncoders = MAX_ENCODERS := by rw [hn]; exact Nat.min_eq_right hge
      rw [attach_full this I Q s (le_of_eq hk.symm)]
      exact hrun (by unfold MAX_ENCODERS at hge; omega)

theorem Tracks_step (k : Nat) (s : Sys) (op : Op) (h : Tracks k s) :
    ∃ s1, step s op = some s1 ∧ Tracks (k + attachCount [op]) s1 := by
  cases op with
  | attach this I Q => exact ⟨_, rfl, Tracks_attach k this I Q s h⟩
  | tick rd =>
    obtain ⟨objs1, h1, _, h3⟩ := tick_spec rd s h.1
    obtain ⟨s1, h1b, hwf1⟩ := WF_tick rd s h.1
    refine ⟨s1, h1b, hwf1, ?_⟩
    have hs1 : s1 = { s with OCR1A := toUInt16 (s.OCR1A + s.timerIncrement), objs := objs1 } := by
      have := h1b.symm.trans h1
      exact Option.some.inj this
    subst hs1
    exact ⟨h.2.1, h.2.2.1, h.2.2.2.1, h.2.2.2.2⟩
  | setRate rate =>
    refine ⟨_, rfl, WF_setEncoderRate rate s h.1, ?_⟩
    unfold setEncoderRate
    dsimp only
    split
    · exact ⟨h.2.1, h.2.2.1, h.2.2.2.1, h.2.2.2.2⟩
    · exact ⟨h.2.1, h.2.2.1, h.2.2.2.1, h.2.2.2.2⟩

theorem attachCount_cons (op : Op) (ops : List Op) :
    attachCount (op :: ops) = attachCount [op] + attachCount ops := by
  cases op <;> simp [attachCount, Nat.add_comm]

theorem Tracks_run (ops : List Op) :
    ∀ (k : Nat) (s : Sys), Tracks k s →
      ∃ s1, run ops s = some s1 ∧ Tracks (k + attachCount ops) s1 := by
  induction ops with
  | nil => intro k s h; exact ⟨s, rfl, h⟩
  | cons op ops ih =>
    intro k s h
    obtain ⟨s1, h1, ht1⟩ := Tracks_step k s op h
    obtain ⟨s2, h2, ht2⟩ := ih _ s1 ht1
    refine ⟨s2, by simp only [run, h1, h2], ?_⟩
    rw [attachCount_cons, ← Nat.add_assoc]; exact ht2

theorem sampleSlot_frame (rd : Nat → Nat → Bool) (i : Nat) (s s1 : Sys)
    (h : sampleSlot rd i s = some s1) :
    s1.TCCR1B = s.TCCR1B ∧ s1.TIMSK1_OCIE1A = s.TIMSK1_OCIE1A ∧ s1.SREG_I = s.SREG_I := by
  unfold sampleSlot at h
  split at h
  · dsimp only at h
    split at h
    · simp only [Option.some.injEq] at h
      subst h
      exact ⟨rfl, rfl, rfl⟩
    · simp at h
  · simp at h

theorem sampleFrom_frame (rd : Nat → Nat → Bool) :
    ∀ (n i : Nat) (s s1 : Sys), sampleFrom rd n i s = some s1 →
      s1.TCCR1B = s.TCCR1B ∧ s1.TIMSK1_OCIE1A = s.TIMSK1_OCIE1A ∧ s1.SREG_I = s.SREG_I := by
  intro n
  induction n with
  | zero =>
    intro i s s1 h
    simp only [sampleFrom, Option.some.injEq] at h
    subst h
    exact ⟨rfl, rfl, rfl⟩
  | succ n ih =>
    intro i s s1 h
    simp only [sampleFrom] at h
    cases hs : sampleSlot rd i s with
    | none => rw [hs] at h; simp at h
    | some s2 =>
      rw [hs] at h
      obtain ⟨a1, a2, a3⟩ := sampleSlot_frame rd i s s2 hs
      obtain ⟨b1, b2, b3⟩ := ih (i + 1) s2 s1 h
      exact ⟨b1.trans a1, b2.trans a2, b3.trans a3⟩

theorem Running_attach (this I Q : Nat) (s : Sys) (h : Running s) :
    Running (attach this I Q s) := by
  rcases Nat.lt_or_ge s.attachedEncoders MAX_ENCODERS with hlt | hge
  · rw [attach_room this I Q s hlt]
    split
    · exact ⟨rfl, rfl, rfl⟩
    · exact h
  · rw [attach_full this I Q s hge]
    exact h

theorem Running_step (s s1 : Sys) (op : Op) (h : Running s) (hs : step s op = some s1) :
    Running s1 := by
  cases op with
  | attach this I Q =>
    simp only [step, Option.some.injEq] at hs
    subst hs
    exact Running_attach this I Q s h
  | tick rd =>
    obtain ⟨a1, a2, a3⟩ := sampleFrom_frame rd _ _ _ _ hs
    exact ⟨a1.trans h.1, a2.trans h.2.1, a3.trans h.2.2⟩
  | setRate rate =>
    simp only [step, Option.some.injEq] at hs
    subst hs
    unfold setEncoderRate
    dsimp only
    split
    · exact h
    · exact h

/-! ## Registry and start-up (C8, C9, C10) -/

/-- C8: every run of attach calls, ticks and rate changes from the initial state is
defined and ends with `attachedEncoders <= MAX_ENCODERS` (it equals the number of attach
calls made, capped at 8) and an 8-slot registry.  An attach made after such a run resets
that encoder's state and counter to 0; when fewer than 8 attaches came before, it stores
the encoder in the slot numbered by that count and raises the occupancy by one; when 8 or
more came before, it leaves the occupancy at 8 and every registry slot unchanged. -/
theorem registry_capacity (objs : Nat → IQencoder) (ops : List Op) :
    ∃ s, run ops (init objs) = some s ∧
      s.attachedEncoders ≤ MAX_ENCODERS ∧ s.encoders.length = MAX_ENCODERS ∧
      s.attachedEncoders = min (attachCount ops) MAX_ENCODERS ∧
      ∀ this I Q,
        run (ops ++ [Op.attach this I Q]) (init objs) = some (attach this I Q s) ∧
        ((attach this I Q s).objs this).state = 0 ∧
        ((attach this I Q s).objs this).encoderCounter = 0 ∧
        (attachCount ops < MAX_ENCODERS →
          (attach this I Q s).attachedEncoders = attachCount ops + 1 ∧
          (attach this I Q s).encoders = s.encoders.set (attachCount ops) (some this) ∧
          (attach this I Q s).encoders[attachCount ops]? = some (some this)) ∧
        (MAX_ENCODERS ≤ attachCount ops →
          (attach this I Q s).attachedEncoders = MAX_ENCODERS ∧
          (attach this I Q s).encoders = s.encoders) := by
  obtain ⟨s, hr, hwf, hn, _⟩ := Tracks_run ops 0 (init objs) (Tracks_init objs)
  rw [Nat.zero_add] at hn
  refine ⟨s, hr, hwf.1, hwf.2.1, hn, ?_⟩
  intro this I Q
  refine ⟨?_, ?_, ?_, ?_, ?_⟩
  · rw [run_append ops _ _ s hr]; rfl
  · rcases Nat.lt_or_ge s.attachedEncoders MAX_ENCODERS with hlt | hge
    · rw [attach_room this I Q s hlt]; split <;> simp
    · rw [attach_full this I Q s hge]; simp
  · rcases Nat.lt_or_ge s.attachedEncoders MAX_ENCODERS with hlt | hge
    · rw [attach_room this I Q s hlt]; split <;> simp
    · rw [attach_full this I Q s hge]; simp
  · intro hlt
    have hk : s.attachedEncoders = attachCount ops := by
      rw [hn]; exact Nat.min_eq_left (le_of_lt hlt)
    have hlen : attachCount ops < s.encoders.length := by rw [hwf.2.1]; exact hlt
    rw [attach_room this I Q s (by rw [hk]; exact hlt)]
    split <;>
      exact ⟨by dsimp only; rw [hk], by dsimp only; rw [hk],
        by dsimp only; rw [hk]; exact List.getElem?_set_self hlen⟩
  · intro hge
    have hk : s.attachedEncoders = MAX_ENCODERS := by rw [hn]; exact Nat.min_eq_right hge
    rw [attach_full this I Q s (le_of_eq hk.symm)]
    exact ⟨hk, rfl⟩

/-- C8 with nine encoders attached in turn: after the first two attaches the third goes to
slot 2 and raises the occupancy to 3; after eight attaches the occupancy is 8, and the
ninth attach leaves it at 8 with the registry as it was. -/
theorem registry_capacity_witness :
    (∃ s, run [Op.attach 0 0 1, Op.attach 1 2 3] (init zeroObjs) = some s ∧
      (attach 2 4 5 s).attachedEncoders = 3 ∧ (attach 2 4 5 s).encoders[2]? = some (some 2)) ∧
    (∃ s, run eightAttaches (init zeroObjs) = some s ∧ s.attachedEncoders = 8 ∧
      run (eightAttaches ++ [Op.attach 8 16 17]) (init zeroObjs) = some (attach 8 16 17 s) ∧
      (attach 8 16 17 s).attachedEncoders = 8 ∧
      (attach 8 16 17 s).encoders = s.encoders) := by
  constructor
  · obtain ⟨s, h1, _, _, _, h5⟩ :=
      registry_capacity zeroObjs [Op.attach 0 0 1, Op.attach 1 2 3]
    obtain ⟨_, _, _, h6, _⟩ := h5 2 4 5
    have h7 := h6 (by decide)
    exact ⟨s, h1, h7.1, h7.2.2⟩
  · obtain ⟨s, h1, _, _, h4, h5⟩ := registry_capacity zeroObjs eightAttaches
    obtain ⟨h6, _, _, _, h7⟩ := h5 8 16 17
    have h8 := h7 (by decide)
    exact ⟨s, h1, by rw [h4]; decide, h6, h8.1, h8.2⟩

/-- C9 as stated fails: after eight attaches and one tick in which every encoder samples 3
(a diagonal transition, so the counter of encoder 0 stands at 128 and its state at 3), the
registry is full; attaching encoder 0 again on the pins 20 and 21 makes two more `pinMode`
calls and overwrites that encoder's counter, state and pins. -/
theorem attach_full_not_noop :
    (run (eightAttaches ++ [Op.tick (linesAt 3)]) (init zeroObjs)).map
        (fun s => (s.attachedEncoders, s.effects.length, s.objs 0)) =
      some (8, 17, { encoderCounter := 128, I_pin := 0, Q_pin := 1, state := 3 }) ∧
    (run (eightAttaches ++ [Op.tick (linesAt 3), Op.attach 0 20 21]) (init zeroObjs)).map
        (fun s => (s.attachedEncoders, s.effects.length, s.objs 0)) =
      some (8, 19, { encoderCounter := 0, I_pin := 20, Q_pin := 21, state := 0 }) ∧
    (run (eightAttaches ++ [Op.tick (linesAt 3), Op.attach 0 20 21]) (init zeroObjs)).map
        (fun s => s.effects.drop 17) =
      some [Effect.pinMode 20 PinMode.INPUT_PULLUP, Effect.pinMode 21 PinMode.INPUT_PULLUP] := by
  decide

/-- C9 amended: an attach made when the registry is full leaves the registry, the
occupancy, `timerIncrement` and the timer registers unchanged, does not start the sampler
and changes no other encoder object; it does make the two `pinMode` calls and it sets the
called encoder's pins to the arguments and its state and counter to 0. -/
theorem attach_full_effect (this I Q : Nat) (s : Sys)
    (h : s.attachedEncoders = MAX_ENCODERS) :
    attach this I Q s =
      { s with
        objs := Function.update s.objs this
          { encoderCounter := 0, I_pin := toUInt8 I, Q_pin := toUInt8 Q, state := 0 }
        effects := s.effects ++
          [Effect.pinMode (toUInt8 I) PinMode.INPUT_PULLUP,
           Effect.pinMode (toUInt8 Q) PinMode.INPUT_PULLUP] } ∧
    (attach this I Q s).encoders = s.encoders ∧
    (attach this I Q s).attachedEncoders = s.attachedEncoders ∧
    (attach this I Q s).timerIncrement = s.timerIncrement ∧
    samplerStarts (attach this I Q s) = samplerStarts s ∧
    (∀ o, o ≠ this → (attach this I Q s).objs o = s.objs o) ∧
    (attach this I Q s).objs this =
      { encoderCounter := 0, I_pin := toUInt8 I, Q_pin := toUInt8 Q, state := 0 } := by
  have heq := attach_full this I Q s (le_of_eq h.symm)
  refine ⟨heq, ?_, ?_, ?_, ?_, ?_, ?_⟩
  · rw [heq]
  · rw [heq]
  · rw [heq]
  · rw [heq]; unfold samplerStarts
    simp only [List.count_append, count_sei_pinModes, add_zero]
  · intro o ho
    rw [heq]; exact Function.update_noteq ho _ _
  · rw [heq]; exact Function.update_same _ _ _

/-- C9 amended, on the full registry left by eight attaches: a ninth attach of a new
encoder 8 on the pins 16 and 17 keeps the occupancy at 8 and resets that encoder. -/
theorem attach_full_effect_witness :
    ∃ s, run eightAttaches (init zeroObjs) = some s ∧ s.attachedEncoders = MAX_ENCODERS ∧
      (attach 8 16 17 s).attachedEncoders = 8 ∧ (attach 8 16 17 s).encoders = s.encoders ∧
      (attach 8 16 17 s).objs 8 =
        { encoderCounter := 0, I_pin := 16, Q_pin := 17, state := 0 } := by
  obtain ⟨s, hr, ht⟩ := Tracks_run eightAttaches 0 (init zeroObjs) (Tracks_init zeroObjs)
  have hfull : s.attachedEncoders = MAX_ENCODERS := by rw [ht.2.1]; decide
  have h := attach_full_effect 8 16 17 s hfull
  exact ⟨s, hr, hfull, by rw [h.2.2.1, hfull]; rfl, h.2.1, h.2.2.2.2.2.2⟩

/-- C10: after every run from the initial state the sampler has been started once if the
run holds an attach call and not at all otherwise, and it is running exactly in the first
case; an attach made after the run starts the sampler (runs the start-up block once more)
only if no attach came before, whether or not the registry is full.  From any state in
which the sampler is running, every step leaves it running. -/
theorem sampler_started_once (objs : Nat → IQencoder) (ops : List Op) :
    (∃ s, run ops (init objs) = some s ∧
      samplerStarts s = min (attachCount ops) 1 ∧
      (attachCount ops = 0 → ¬ Running s) ∧
      (0 < attachCount ops → Running s) ∧
      ∀ this I Q,
        samplerStarts (attach this I Q s) =
          samplerStarts s + (if attachCount ops = 0 then 1 else 0) ∧
        Running (attach this I Q s)) ∧
    (∀ (s s1 : Sys) (op : Op), Running s → step s op = some s1 → Running s1) := by
  refine ⟨?_, fun s s1 op h hs => Running_step s s1 op h hs⟩
  obtain ⟨s, hr, ht⟩ := Tracks_run ops 0 (init objs) (Tracks_init objs)
  rw [Nat.zero_add] at ht
  refine ⟨s, hr, ht.2.2.1, ?_, ht.2.2.2.1, ?_⟩
  · intro h0 hrun
    have := ht.2.2.2.2 h0
    rw [hrun.2.1] at this
    exact Bool.noConfusion this
  · intro this I Q
    have ht1 := Tracks_attach (attachCount ops) this I Q s ht
    refine ⟨?_, ht1.2.2.2.1 (Nat.succ_pos _)⟩
    rw [ht1.2.2.1, ht.2.2.1]
    split <;> omega

/-- C10 on nine attaches in turn: the first attach starts the sampler, and after all nine
(the last one made on a full registry) it has still been started exactly once. -/
theorem sampler_started_once_witness :
    (∃ s, run [Op.attach 0 0 1] (init zeroObjs) = some s ∧ samplerStarts s = 1 ∧ Running s) ∧
    (∃ s, run (eightAttaches ++ [Op.attach 8 16 17]) (init zeroObjs) = some s ∧
      samplerStarts s = 1 ∧ Running s) := by
  constructor
  · obtain ⟨s, h1, h2, _, h4, _⟩ := (sampler_started_once zeroObjs [Op.attach 0 0 1]).1
    exact ⟨s, h1, h2, h4 (by decide)⟩
  · obtain ⟨s, h1, h2, _, h4, _⟩ :=
      (sampler_started_once zeroObjs (eightAttaches ++ [Op.attach 8 16 17])).1
    exact ⟨s, h1, by rw [h2]; decide, h4 (by decide)⟩

/-! ## Lemmas on the rate in force and on registry contents -/

theorem attach_timerIncrement (this I Q : Nat) (s : Sys) :
    (attach this I Q s).timerIncrement = s.timerIncrement ∧
    (attach this I Q s).OCR1A = s.OCR1A := by
  rcases Nat.lt_or_ge s.attachedEncoders MAX_ENCODERS with hlt | hge
  · rw [attach_room this I Q s hlt]
    split <;> exact ⟨rfl, rfl⟩
  · rw [attach_full this I Q s hge]
    exact ⟨rfl, rfl⟩

/-- Along every run from a well-formed state `timerIncrement` is the increment of the rate
in force. -/
theorem rate_run (ops : List Op) :
    ∀ (s : Sys) (r : Nat), WF s → 250 ≤ r → r ≤ 20000 → s.timerIncrement = 16000000 / r →
      ∃ s1, run ops s = some s1 ∧
        250 ≤ acceptedRate ops s r ∧ acceptedRate ops s r ≤ 20000 ∧
        s1.timerIncrement = 16000000 / acceptedRate ops s r := by
  induction ops with
  | nil => intro s r _ hlo hhi ht; exact ⟨s, rfl, hlo, hhi, ht⟩
  | cons op ops ih =>
    intro s r hwf hlo hhi ht
    cases op with
    | attach this I Q =>
      obtain ⟨s2, h2, h3⟩ := ih (attach this I Q s) r (WF_attach this I Q s hwf) hlo hhi
        (by rw [(attach_timerIncrement this I Q s).1]; exact ht)
      exact ⟨s2, by simp only [run, step]; exact h2, by simp only [acceptedRate, step]; exact h3⟩
    | tick rd =>
      obtain ⟨objs1, h1, _, _⟩ := tick_spec rd s hwf
      obtain ⟨s1, h1b, hwf1⟩ := WF_tick rd s hwf
      have hs1 : s1 = { s with OCR1A := toUInt16 (s.OCR1A + s.timerIncrement), objs := objs1 } :=
        Option.some.inj (h1b.symm.trans h1)
      obtain ⟨s2, h2, h3⟩ := ih s1 r hwf1 hlo hhi (by rw [hs1]; exact ht)
      exact ⟨s2, by simp only [run, step, h1b]; exact h2,
        by simp only [acceptedRate, step, h1b]; exact h3⟩
    | setRate rate =>
      rcases setEncoderRate_cases rate s with ⟨a1, a2, a3⟩ | ⟨_, a3⟩
      · have hne : ¬ ((toUInt16 rate : Int) = -1) := by omega
        obtain ⟨s2, h2, h3⟩ := ih (setEncoderRate rate s).2 (toUInt16 rate)
          (WF_setEncoderRate rate s hwf) a1 a2 (by rw [a3])
        refine ⟨s2, by simp only [run, step]; exact h2, ?_⟩
        simp only [acceptedRate, step, a3, hne, if_false, Int.toNat_ofNat]
        rw [a3] at h3
        exact h3
      · obtain ⟨s2, h2, h3⟩ := ih (setEncoderRate rate s).2 r
          (WF_setEncoderRate rate s hwf) hlo hhi (by rw [a3]; exact ht)
        refine ⟨s2, by simp only [run, step]; exact h2, ?_⟩
        simp only [acceptedRate, step, a3, if_true]
        rw [a3] at h3
        exact h3

/-- Along every run from a well-formed state the slots below the occupancy hold addresses
that were there before or are the object of an `attach` of the run. -/
theorem slots_from_attach (ops : List Op) :
    ∀ (s : Sys) (P : Nat → Prop), WF s →
      (∀ i, i < s.attachedEncoders → ∃ p, s.encoders[i]? = some (some p) ∧ P p) →
      ∃ s1, run ops s = some s1 ∧ WF s1 ∧
        ∀ i, i < s1.attachedEncoders →
          ∃ p, s1.encoders[i]? = some (some p) ∧ (P p ∨ p ∈ attachedObjs ops) := by
  induction ops with
  | nil =>
    intro s P hwf h
    refine ⟨s, rfl, hwf, ?_⟩
    intro i hi
    obtain ⟨p, hp, hP⟩ := h i hi
    exact ⟨p, hp, Or.inl hP⟩
  | cons op ops ih =>
    intro s P hwf h
    cases op with
    | attach this I Q =>
      have hstep : ∀ i, i < (attach this I Q s).attachedEncoders →
          ∃ p, (attach this I Q s).encoders[i]? = some (some p) ∧ (P p ∨ p = this) := by
        rcases Nat.lt_or_ge s.attachedEncoders MAX_ENCODERS with hlt | hge
        · have hlen : s.attachedEncoders < s.encoders.length := by rw [hwf.2.1]; exact hlt
          have key : ∀ i, i < s.attachedEncoders + 1 →
              ∃ p, (s.encoders.set s.attachedEncoders (some this))[i]? = some (some p) ∧
                (P p ∨ p = this) := by
            intro i hi
            by_cases hin : i = s.attachedEncoders
            · subst hin
              exact ⟨this, List.getElem?_set_self hlen, Or.inr rfl⟩
            · obtain ⟨p, hp, hP⟩ := h i (by omega)
              refine ⟨p, ?_, Or.inl hP⟩
              rw [List.getElem?_set_ne (fun hc => hin hc.symm)]; exact hp
          rw [attach_room this I Q s hlt]
          split <;> exact key
        · rw [attach_full this I Q s hge]
          intro i hi
          obtain ⟨p, hp, hP⟩ := h i hi
          exact ⟨p, hp, Or.inl hP⟩
      obtain ⟨s2, h2, hwf2, h3⟩ := ih (attach this I Q s) (fun p => P p ∨ p = this)
        (WF_attach this I Q s hwf) hstep
      refine ⟨s2, by simp only [run, step]; exact h2, hwf2, ?_⟩
      intro i hi
      obtain ⟨p, hp, hP⟩ := h3 i hi
      refine ⟨p, hp, ?_⟩
      simp only [attachedObjs, List.mem_cons]
      tauto
    | tick rd =>
      obtain ⟨objs1, h1, _, _⟩ := tick_spec rd s hwf
      obtain ⟨s1, h1b, hwf1⟩ := WF_tick rd s hwf
      have hs1 : s1 = { s with OCR1A := toUInt16 (s.OCR1A + s.timerIncrement), objs := objs1 } :=
        Option.some.inj (h1b.symm.trans h1)
      obtain ⟨s2, h2, hwf2, h3⟩ := ih s1 P hwf1 (by rw [hs1]; exact h)
      exact ⟨s2, by simp only [run, step, h1b]; exact h2, hwf2, h3⟩
    | setRate rate =>
      have hsame : (setEncoderRate rate s).2.attachedEncoders = s.attachedEncoders ∧
          (setEncoderRate rate s).2.encoders = s.encoders := by
        rcases setEncoderRate_cases rate s with ⟨_, _, a3⟩ | ⟨_, a3⟩ <;> rw [a3] <;> exact ⟨rfl, rfl⟩
      obtain ⟨s2, h2, hwf2, h3⟩ := ih (setEncoderRate rate s).2 P
        (WF_setEncoderRate rate s hwf) (by rw [hsame.1, hsame.2]; exact h)
      exact ⟨s2, by simp only [run, step]; exact h2, hwf2, h3⟩

/-! ## Invariants of the running system (C11, C12) -/

/-- C11: the initial `timerIncrement` is 16000000 / DEFAULT_RATE = 1600, and every run of
`setEncoderRate` calls with arbitrary arguments, attach calls and ticks from the initial
state is defined and ends with `timerIncrement = 16000000 / r`, where r is the rate in
force (the value returned by the latest call that was not rejected, DEFAULT_RATE if there
is none); r lies in [250, 20000] and `timerIncrement` in [800, 64000]. -/
theorem timerIncrement_invariant (objs : Nat → IQencoder) (ops : List Op) :
    (init objs).timerIncrement = 16000000 / DEFAULT_RATE ∧
    (init objs).timerIncrement = 1600 ∧
    ∃ s, run ops (init objs) = some s ∧
      250 ≤ acceptedRate ops (init objs) DEFAULT_RATE ∧
      acceptedRate ops (init objs) DEFAULT_RATE ≤ 20000 ∧
      s.timerIncrement = 16000000 / acceptedRate ops (init objs) DEFAULT_RATE ∧
      800 ≤ s.timerIncrement ∧ s.timerIncrement ≤ 64000 := by
  refine ⟨rfl, rfl, ?_⟩
  obtain ⟨s, h1, h2, h3, h4⟩ := rate_run ops (init objs) DEFAULT_RATE (WF_init objs)
    (by decide) (by decide) rfl
  have hb := rate_bounds _ h2 h3
  exact ⟨s, h1, h2, h3, h4, by rw [h4]; exact hb.1, by rw [h4]; exact hb.2⟩

/-- C11 on a run that accepts 1000, rejects 100000 and 249 and attaches and ticks in
between: the rate in force is 1000 and `timerIncrement` is 16000. -/
theorem timerIncrement_invariant_witness :
    acceptedRate [Op.setRate 1000, Op.attach 0 2 3, Op.setRate 100000, Op.tick (linesAt 1),
      Op.setRate 249] (init zeroObjs) DEFAULT_RATE = 1000 ∧
    ∃ s, run [Op.setRate 1000, Op.attach 0 2 3, Op.setRate 100000, Op.tick (linesAt 1),
      Op.setRate 249] (init zeroObjs) = some s ∧ s.timerIncrement = 16000 := by
  have hr : acceptedRate [Op.setRate 1000, Op.attach 0 2 3, Op.setRate 100000,
      Op.tick (linesAt 1), Op.setRate 249] (init zeroObjs) DEFAULT_RATE = 1000 := by decide
  obtain ⟨_, _, s, h1, _, _, h4, _⟩ := timerIncrement_invariant zeroObjs
    [Op.setRate 1000, Op.attach 0 2 3, Op.setRate 100000, Op.tick (linesAt 1), Op.setRate 249]
  exact ⟨hr, s, h1, by rw [h4, hr]⟩

/-- C12: every run of attach calls, ticks with arbitrary line readings (and rate changes)
from the initial state is defined, and in the state it reaches a further tick is defined
for every line reading: `attachedEncoders <= MAX_ENCODERS`, the registry has
`MAX_ENCODERS` slots, and for every loop index i below `attachedEncoders` the slot
`encoders[i]` holds the address of an encoder on which the run called `attach`, the stored
state of that encoder is below 4, the packed input is below 4 and `encref[state][input]`
is an entry of the table. -/
theorem tick_panic_free (objs : Nat → IQencoder) (ops : List Op) (rd : Nat → Nat → Bool) :
    ∃ s, run ops (init objs) = some s ∧
      s.attachedEncoders ≤ MAX_ENCODERS ∧ s.encoders.length = MAX_ENCODERS ∧
      (∀ i, i < s.attachedEncoders →
        i < s.encoders.length ∧
        ∃ p, s.encoders[i]? = some (some p) ∧ p ∈ attachedObjs ops ∧
          (s.objs p).state < 4 ∧
          packInput (rd (2 * i) (s.objs p).I_pin) (rd (2 * i + 1) (s.objs p).Q_pin) < 4 ∧
          ∃ d, encref (s.objs p).state
            (packInput (rd (2 * i) (s.objs p).I_pin) (rd (2 * i + 1) (s.objs p).Q_pin)) =
              some d) ∧
      ∃ s1, TIMER1_COMPA_vect rd s = some s1 := by
  obtain ⟨s, h1, hwf, h2⟩ := slots_from_attach ops (init objs) (fun _ => False) (WF_init objs)
    (by intro i hi; exact absurd hi (Nat.not_lt_zero i))
  obtain ⟨s1, ht, _⟩ := WF_tick rd s hwf
  refine ⟨s, h1, hwf.1, hwf.2.1, ?_, s1, ht⟩
  intro i hi
  obtain ⟨p, hp, hP⟩ := h2 i hi
  obtain ⟨q, hq, hqlt⟩ := (slotOk_iff s i).1 (hwf.2.2 i hi)
  have hpq : q = p := by
    rw [hp] at hq; simp only [Option.some.injEq] at hq; exact hq.symm
  subst hpq
  have hin : packInput (rd (2 * i) (s.objs q).I_pin) (rd (2 * i + 1) (s.objs q).Q_pin) < 4 := by
    rw [packInput_eq]; exact currentOf_lt rd i (s.objs q)
  refine ⟨by rw [hwf.2.1]; exact lt_of_lt_of_le hi hwf.1, q, hp, ?_, hqlt, hin,
    encref_isSome _ _ hqlt hin⟩
  rcases hP with hF | hmem
  · exact absurd hF id
  · exact hmem

/-! ## Lemmas on the deadline -/

theorem toUInt16_add (a b : Nat) : toUInt16 (toUInt16 a + b) = toUInt16 (a + b) := by
  unfold toUInt16; omega

/-- A run of ticks from a well-formed state is defined; it leaves `timerIncrement` alone
and adds it to the deadline once per tick, in 16-bit arithmetic. -/
theorem run_ticks_deadline :
    ∀ (rds : List (Nat → Nat → Bool)) (s : Sys), WF s →
      ∃ s1, run (rds.map Op.tick) s = some s1 ∧ WF s1 ∧
        s1.timerIncrement = s.timerIncrement ∧
        toUInt16 s1.OCR1A = toUInt16 (s.OCR1A + rds.length * s.timerIncrement) ∧
        (rds ≠ [] → s1.OCR1A = toUInt16 (s.OCR1A + rds.length * s.timerIncrement)) := by
  intro rds
  induction rds with
  | nil =>
    intro s h
    exact ⟨s, rfl, h, rfl, by simp, fun hc => absurd rfl hc⟩
  | cons rd rds ih =>
    intro s h
    obtain ⟨objs1, h1, _, _⟩ := tick_spec rd s h
    obtain ⟨s1, h1b, hwf1⟩ := WF_tick rd s h
    have hs1 : s1 = { s with OCR1A := toUInt16 (s.OCR1A + s.timerIncrement), objs := objs1 } :=
      Option.some.inj (h1b.symm.trans h1)
    obtain ⟨s2, h2, hwf2, h3, h4, h5⟩ := ih s1 hwf1
    have ht : s1.timerIncrement = s.timerIncrement := by rw [hs1]
    have ho : s1.OCR1A = toUInt16 (s.OCR1A + s.timerIncrement) := by rw [hs1]
    have hsum : toUInt16 (s1.OCR1A + rds.length * s1.timerIncrement) =
        toUInt16 (s.OCR1A + (rd :: rds).length * s.timerIncrement) := by
      rw [ho, ht, toUInt16_add, List.length_cons]
      congr 1
      ring
    refine ⟨s2, by simp only [List.map_cons, run, step, h1b]; exact h2, hwf2, h3.trans ht,
      h4.trans hsum, fun _ => ?_⟩
    cases rds with
    | nil =>
      simp only [List.map_nil, run, Option.some.injEq] at h2
      subst h2
      rw [ho]; simp
    | cons rd2 rds2 => rw [h5 (List.cons_ne_nil _ _), hsum]

/-! ## The tick deadline (C16) -/

/-- C16: on a well-formed state a tick is defined and sets `OCR1A` to the old `OCR1A` plus
the current `timerIncrement` modulo 2^16, whatever the rest of the state is.  So after k
ticks from a state with the 16-bit deadline d0 and increment t the deadline is
(d0 + k * t) mod 2^16, and after k1 ticks, a rate change and k2 more ticks it is
(d0 + k1 * t + k2 * t2) mod 2^16, where t2 is the increment the rate change leaves. -/
theorem deadline_accumulates (s : Sys) (h : WF s) (hd : s.OCR1A < 65536) :
    (∀ rd, ∃ s1, TIMER1_COMPA_vect rd s = some s1 ∧
      s1.OCR1A = (s.OCR1A + s.timerIncrement) % 65536 ∧
      s1.timerIncrement = s.timerIncrement) ∧
    (∀ rds : List (Nat → Nat → Bool), ∃ s1, run (rds.map Op.tick) s = some s1 ∧
      s1.OCR1A = (s.OCR1A + rds.length * s.timerIncrement) % 65536 ∧
      s1.timerIncrement = s.timerIncrement) ∧
    (∀ (rds1 rds2 : List (Nat → Nat → Bool)) (rate : Nat),
      ∃ s1, run (rds1.map Op.tick ++ Op.setRate rate :: rds2.map Op.tick) s = some s1 ∧
        s1.timerIncrement = (setEncoderRate rate s).2.timerIncrement ∧
        s1.OCR1A = (s.OCR1A + rds1.length * s.timerIncrement +
          rds2.length * (setEncoderRate rate s).2.timerIncrement) % 65536) := by
  have hmod : toUInt16 s.OCR1A = s.OCR1A := Nat.mod_eq_of_lt hd
  have key : ∀ (rds : List (Nat → Nat → Bool)) (s0 : Sys), WF s0 → s0.OCR1A < 65536 →
      ∃ s1, run (rds.map Op.tick) s0 = some s1 ∧ WF s1 ∧
        s1.OCR1A = (s0.OCR1A + rds.length * s0.timerIncrement) % 65536 ∧
        s1.timerIncrement = s0.timerIncrement := by
    intro rds s0 h0 hd0
    obtain ⟨s1, h1, hwf1, h2, h3, h4⟩ := run_ticks_deadline rds s0 h0
    refine ⟨s1, h1, hwf1, ?_, h2⟩
    cases rds with
    | nil =>
      simp only [List.map_nil, run, Option.some.injEq] at h1
      subst h1
      simp only [List.length_nil, zero_mul, add_zero]
      exact (Nat.mod_eq_of_lt hd0).symm
    | cons rd rds => exact h4 (List.cons_ne_nil _ _)
  refine ⟨?_, ?_, ?_⟩
  · intro rd
    obtain ⟨objs1, h1, _, _⟩ := tick_spec rd s h
    exact ⟨_, h1, rfl, rfl⟩
  · intro rds
    obtain ⟨s1, h1, _, h2, h3⟩ := key rds s h hd
    exact ⟨s1, h1, h2, h3⟩
  · intro rds1 rds2 rate
    obtain ⟨s1, h1, hwf1, h2, h3⟩ := key rds1 s h hd
    have hrate : (setEncoderRate rate s1).2.timerIncrement =
        (setEncoderRate rate s).2.timerIncrement ∧
        (setEncoderRate rate s1).2.OCR1A = s1.OCR1A := by
      rcases setEncoderRate_cases rate s1 with ⟨_, _, a3⟩ | ⟨_, a3⟩ <;>
        rcases setEncoderRate_cases rate s with ⟨b1, b2, b3⟩ | ⟨b1, b3⟩ <;>
        first
        | (rw [a3, b3]; exact ⟨rfl, rfl⟩)
        | (rw [a3, b3]; exact ⟨h3, rfl⟩)
        | omega
    have hd1 : (setEncoderRate rate s1).2.OCR1A < 65536 := by
      rw [hrate.2, h2]; exact Nat.mod_lt _ (by decide)
    obtain ⟨s2, h4, _, h5, h6⟩ := key rds2 (setEncoderRate rate s1).2
      (WF_setEncoderRate rate s1 hwf1) hd1
    refine ⟨s2, ?_, h6.trans hrate.1, ?_⟩
    · rw [run_append _ _ s s1 h1]
      simp only [run, step]
      exact h4
    · rw [h5, hrate.1, hrate.2, h2]
      omega

/-- C16 from the initial state with one encoder attached: three ticks at the default
increment 1600 leave the deadline at 4800; two ticks, a change to 1000 Hz and two more
ticks leave it at 2 * 1600 + 2 * 16000 = 35200. -/
theorem deadline_accumulates_witness :
    WF (attach 0 2 3 (init zeroObjs)) ∧ (attach 0 2 3 (init zeroObjs)).OCR1A < 65536 ∧
    (∃ s1, run ([linesAt 0, linesAt 0, linesAt 0].map Op.tick) (attach 0 2 3 (init zeroObjs)) =
      some s1 ∧ s1.OCR1A = 4800) ∧
    (∃ s1, run ([linesAt 0, linesAt 0].map Op.tick ++
        Op.setRate 1000 :: [linesAt 0, linesAt 0].map Op.tick) (attach 0 2 3 (init zeroObjs)) =
      some s1 ∧ s1.OCR1A = 35200) := by
  have hwf : WF (attach 0 2 3 (init zeroObjs)) := by decide
  have hd : (attach 0 2 3 (init zeroObjs)).OCR1A < 65536 := by decide
  obtain ⟨_, h2, h3⟩ := deadline_accumulates (attach 0 2 3 (init zeroObjs)) hwf hd
  refine ⟨hwf, hd, ?_, ?_⟩
  · obtain ⟨s1, h4, h5, _⟩ := h2 [linesAt 0, linesAt 0, linesAt 0]
    exact ⟨s1, h4, by rw [h5]; decide⟩
  · obtain ⟨s1, h4, _, h5⟩ := h3 [linesAt 0, linesAt 0] [linesAt 0, linesAt 0] 1000
    exact ⟨s1, h4, by rw [h5]; decide⟩

/-! ## Lemmas on phase and on paths walked back -/

theorem attach_objs_this (this I Q : Nat) (s : Sys) :
    (attach this I Q s).objs this =
      { encoderCounter := 0, I_pin := toUInt8 I, Q_pin := toUInt8 Q, state := 0 } := by
  rcases Nat.lt_or_ge s.attachedEncoders MAX_ENCODERS with hlt | hge
  · rw [attach_room this I Q s hlt]
    split <;> exact Function.update_same _ _ _
  · rw [attach_full this I Q s hge]
    exact Function.update_same _ _ _

theorem sampled_phase (e : IQencoder) (c : Nat) (hp : e.state < 4) (hc : c < 4)
    (hnd : c ≠ 3 - e.state) (hinv : e.encoderCounter % 4 = phi e.state) :
    (sampled e c).encoderCounter % 4 = phi c := by
  obtain ⟨k, a, b, p⟩ := e
  simp only at hp hnd hinv
  simp only [sampled]
  interval_cases p <;> interval_cases c <;>
    simp only [encref, encrefTable, phi, toInt16] at hinv ⊢ <;>
    first
    | exact absurd rfl hnd
    | (simp only [List.getElem?_cons_zero, List.getElem?_cons_succ, Option.some_bind,
        Option.getD_some]; omega)

theorem noDiagonal_cons (p c : Nat) (cs : List Nat) :
    noDiagonal p (c :: cs) = true ↔ c < 4 ∧ c ≠ 3 - p ∧ noDiagonal c cs = true := by
  simp only [noDiagonal, Bool.and_eq_true, decide_eq_true_eq, and_assoc]

theorem noDiagonal_append_left (a b : List Nat) :
    ∀ p, noDiagonal p (a ++ b) = true → noDiagonal p a = true := by
  induction a with
  | nil => intro p _; rfl
  | cons c cs ih =>
    intro p h
    rw [List.cons_append, noDiagonal_cons] at h
    rw [noDiagonal_cons]
    exact ⟨h.1, h.2.1, ih c h.2.2⟩

/-- The phase invariant is kept by folding in samples without diagonal transitions. -/
theorem foldl_sampled_phase :
    ∀ (cs : List Nat) (e : IQencoder), e.state < 4 → e.encoderCounter % 4 = phi e.state →
      noDiagonal e.state cs = true →
      (cs.foldl sampled e).encoderCounter % 4 = phi (cs.foldl sampled e).state := by
  intro cs
  induction cs with
  | nil => intro e _ hinv _; exact hinv
  | cons c cs ih =>
    intro e hp hinv hnd
    rw [noDiagonal_cons] at hnd
    exact ih (sampled e c) hnd.1 (sampled_phase e c hp hnd.1 hnd.2.1 hinv) hnd.2.2

theorem samplesOf_append (s : Sys) (o : Nat) (a b : List (Nat → Nat → Bool)) :
    samplesOf s o (a ++ b) = samplesOf s o a ++ samplesOf s o b := by
  unfold samplesOf
  exact List.flatMap_append a b _

theorem encref_antisymm (p c : Nat) (hp : p < 4) (hc : c < 4) (hnd : c ≠ 3 - p) :
    (encref c p).getD 0 = -(encref p c).getD 0 := by
  interval_cases p <;> interval_cases c <;> first | exact absurd rfl hnd | rfl

theorem pathDelta_snoc (l : List Nat) (y x : Nat) :
    pathDelta (l ++ [y, x]) = pathDelta (l ++ [y]) + (encref y x).getD 0 := by
  induction l with
  | nil => simp [pathDelta]
  | cons a l ih =>
    cases l with
    | nil => simp [pathDelta]
    | cons b rest =>
      have ih2 : pathDelta (b :: (rest ++ [y, x])) =
          pathDelta (b :: (rest ++ [y])) + (encref y x).getD 0 := ih
      show (encref a b).getD 0 + pathDelta (b :: (rest ++ [y, x])) =
        (encref a b).getD 0 + pathDelta (b :: (rest ++ [y])) + (encref y x).getD 0
      rw [ih2]; ring

/-- Walking a path without diagonal transitions backwards negates the sum of its table
entries. -/
theorem pathDelta_reverse :
    ∀ (l : List Nat), List.Chain' (fun a b => a < 4 ∧ b < 4 ∧ b ≠ 3 - a) l →
      pathDelta l.reverse = -pathDelta l := by
  intro l
  induction l with
  | nil => intro _; rfl
  | cons a l ih =>
    intro hch
    cases l with
    | nil => rfl
    | cons b rest =>
      rw [List.chain'_cons] at hch
      have h1 := ih hch.2
      have hrev : (a :: b :: rest).reverse = rest.reverse ++ [b, a] := by simp
      have hrev1 : (b :: rest).reverse = rest.reverse ++ [b] := by simp
      rw [hrev, pathDelta_snoc, ← hrev1, h1,
        encref_antisymm a b hch.1.1 hch.1.2.1 hch.1.2.2]
      simp only [pathDelta]
      ring

theorem chain_of_noDiagonal :
    ∀ (cs : List Nat) (p : Nat), p < 4 → noDiagonal p cs = true →
      List.Chain' (fun a b => a < 4 ∧ b < 4 ∧ b ≠ 3 - a) (p :: cs) := by
  intro cs
  induction cs with
  | nil => intro p _ _; exact List.chain'_singleton p
  | cons c cs ih =>
    intro p hp h
    rw [noDiagonal_cons] at h
    rw [List.chain'_cons]
    exact ⟨⟨hp, h.1, h.2.1⟩, ih c h.1 h.2.2⟩

theorem reverse_path (p : Nat) (cs : List Nat) :
    (p :: cs).reverse = cs.getLastD p :: backPath p cs := by
  have hh : (p :: cs).reverse.head? = some (cs.getLastD p) := by
    rw [List.head?_reverse, List.getLast?_cons, List.getLastD_eq_getLast?]
  unfold backPath
  exact (List.cons_head?_tail hh).symm

theorem noDiagonal_backPath (p : Nat) (cs : List Nat) (hp : p < 4)
    (h : noDiagonal p cs = true) :
    cs.getLastD p < 4 ∧ noDiagonal (cs.getLastD p) (backPath p cs) = true := by
  have hch := chain_of_noDiagonal cs p hp h
  have hrev : List.Chain' (fun a b => a < 4 ∧ b < 4 ∧ b ≠ 3 - a) (p :: cs).reverse := by
    rw [List.chain'_reverse]
    apply List.Chain'.imp _ hch
    intro a b hab
    exact ⟨hab.2.1, hab.1, by omega⟩
  rw [reverse_path] at hrev
  have hlt : cs.getLastD p < 4 := by
    have hmem : cs.getLastD p ∈ p :: cs := by
      rw [← List.mem_reverse, reverse_path]; exact List.mem_cons_self _ _
    have hall : ∀ x ∈ p :: cs, x < 4 := by
      clear hrev hmem hch
      induction cs generalizing p with
      | nil => intro x hx; simp at hx; omega
      | cons c cs ih =>
        intro x hx
        rw [noDiagonal_cons] at h
        rcases List.mem_cons.1 hx with hx | hx
        · omega
        · exact ih c h.1 h.2.2 x hx
    exact hall _ hmem
  refine ⟨hlt, ?_⟩
  generalize backPath p cs = bp at hrev
  generalize cs.getLastD p = q at hrev hlt
  clear h hch
  induction bp generalizing q with
  | nil => rfl
  | cons c bp ih =>
    rw [List.chain'_cons] at hrev
    rw [noDiagonal_cons]
    exact ⟨hrev.1.2.1, hrev.1.2.2, ih c hrev.2 hrev.1.2.1⟩

/-- Folding samples into an encoder with a 16-bit counter adds the table entries along
the path to the counter in 16-bit arithmetic and leaves the last sample as the state. -/
theorem foldl_sampled_path :
    ∀ (cs : List Nat) (e : IQencoder),
      (-32768 ≤ e.encoderCounter ∧ e.encoderCounter ≤ 32767) →
      (cs.foldl sampled e).encoderCounter =
        toInt16 (e.encoderCounter + pathDelta (e.state :: cs)) ∧
      (cs.foldl sampled e).state = cs.getLastD e.state ∧
      (cs.foldl sampled e).I_pin = e.I_pin ∧ (cs.foldl sampled e).Q_pin = e.Q_pin := by
  intro cs
  induction cs with
  | nil =>
    intro e hk
    refine ⟨?_, rfl, rfl, rfl⟩
    simp only [List.foldl_nil, pathDelta, add_zero]
    exact (toInt16_of_range _ hk.1 hk.2).symm
  | cons c cs ih =>
    intro e _
    obtain ⟨h1, h2, h3, h4⟩ := ih (sampled e c) (toInt16_range _)
    refine ⟨?_, ?_, h3, h4⟩
    · rw [List.foldl_cons, h1]
      show toInt16 (toInt16 (e.encoderCounter + (encref e.state c).getD 0) +
        pathDelta (c :: cs)) = _
      rw [toInt16_add]
      simp only [pathDelta, add_assoc]
    · rw [List.foldl_cons, h2, List.getLastD_cons]
      rfl

theorem toInt16_sub_cancel (k d : Int) (h1 : -32768 ≤ k) (h2 : k ≤ 32767) :
    toInt16 (toInt16 (k + d) + -d) = k := by
  unfold toInt16; omega

/-- Folding in a path without diagonal transitions and then the way back: the sums of the
table entries are opposite, and counter and state return to their starting values. -/
theorem foldl_out_and_back (e : IQencoder) (cs : List Nat) (hp : e.state < 4)
    (hk : -32768 ≤ e.encoderCounter ∧ e.encoderCounter ≤ 32767)
    (hnd : noDiagonal e.state cs = true) :
    (cs.foldl sampled e).encoderCounter =
      toInt16 (e.encoderCounter + pathDelta (e.state :: cs)) ∧
    (cs.foldl sampled e).state = cs.getLastD e.state ∧
    (∀ e2 : IQencoder, e2.state = cs.getLastD e.state →
      (-32768 ≤ e2.encoderCounter ∧ e2.encoderCounter ≤ 32767) →
      ((backPath e.state cs).foldl sampled e2).encoderCounter =
        toInt16 (e2.encoderCounter + pathDelta (e2.state :: backPath e.state cs))) ∧
    pathDelta (cs.getLastD e.state :: backPath e.state cs) = -pathDelta (e.state :: cs) ∧
    noDiagonal (cs.getLastD e.state) (backPath e.state cs) = true ∧
    ((cs ++ backPath e.state cs).foldl sampled e).encoderCounter = e.encoderCounter ∧
    ((cs ++ backPath e.state cs).foldl sampled e).state = e.state := by
  obtain ⟨h1, h2, _, _⟩ := foldl_sampled_path cs e hk
  have hneg : pathDelta (cs.getLastD e.state :: backPath e.state cs) =
      -pathDelta (e.state :: cs) := by
    rw [← reverse_path]
    exact pathDelta_reverse _ (chain_of_noDiagonal cs e.state hp hnd)
  have hback := noDiagonal_backPath e.state cs hp hnd
  obtain ⟨b1, b2, _, _⟩ := foldl_sampled_path (backPath e.state cs) (cs.foldl sampled e)
    (by rw [h1]; exact toInt16_range _)
  refine ⟨h1, h2, ?_, hneg, hback.2, ?_, ?_⟩
  · intro e2 _ hk2
    exact (foldl_sampled_path (backPath e.state cs) e2 hk2).1
  · rw [List.foldl_append, b1, h2, hneg, h1]
    exact toInt16_sub_cancel _ _ hk.1 hk.2
  · rw [List.foldl_append, b2, h2]
    have hlast : ((e.state :: cs).reverse).getLast? = some e.state := by
      rw [List.getLast?_reverse]; rfl
    rw [reverse_path, List.getLast?_cons] at hlast
    rw [List.getLastD_eq_getLast?]
    exact Option.some.inj hlast

theorem samplesOf_after (o : Nat) (rds rds2 : List (Nat → Nat → Bool)) (s s1 : Sys)
    (h : WF s) (hr : run (rds.map Op.tick) s = some s1) :
    samplesOf s1 o rds2 = samplesOf s o rds2 := by
  obtain ⟨s1b, h1, _, ha, he, ho⟩ := run_ticks_obj o rds s h
  have hs : s1b = s1 := Option.some.inj (h1.symm.trans hr)
  subst hs
  have hpins := foldl_sampled_pins (samplesOf s o rds) (s.objs o)
  rw [← ho] at hpins
  have hslots : slotsOf s1b o = slotsOf s o := by
    unfold slotsOf; rw [ha, he]
  unfold samplesOf currentOf
  rw [hslots, hpins.1, hpins.2]

/-! ## Phase and direction symmetry (C17, C18) -/

/-- C17: attach an encoder in a well-formed state, so that its state and counter are 0,
and run any sequence of ticks in which it samples no diagonal transition.  After every
tick (after the first n ticks, for every n) the run is defined and the counter is
congruent to phi(state) modulo 4, where phi maps the states 0, 1, 3, 2 to 0, 1, 2, 3; the
counter is a 16-bit value that may have wrapped.  Whenever the state is 0 the counter is
a multiple of 4. -/
theorem phase_invariant (s0 : Sys) (o I Q : Nat) (rds : List (Nat → Nat → Bool)) (n : Nat)
    (h : WF s0)
    (hnd : noDiagonal 0 (samplesOf (attach o I Q s0) o rds) = true) :
    ((attach o I Q s0).objs o).state = 0 ∧ ((attach o I Q s0).objs o).encoderCounter = 0 ∧
    ∃ s1, run ((rds.take n).map Op.tick) (attach o I Q s0) = some s1 ∧
      (s1.objs o).encoderCounter % 4 = phi (s1.objs o).state ∧
      ((s1.objs o).state = 0 → (s1.objs o).encoderCounter % 4 = 0) := by
  have hobj := attach_objs_this o I Q s0
  have hst : ((attach o I Q s0).objs o).state = 0 := by rw [hobj]
  have hk : ((attach o I Q s0).objs o).encoderCounter = 0 := by rw [hobj]
  refine ⟨hst, hk, ?_⟩
  obtain ⟨s1, h1, _, _, _, h5⟩ :=
    run_ticks_obj o (rds.take n) (attach o I Q s0) (WF_attach o I Q s0 h)
  have hnd1 : noDiagonal ((attach o I Q s0).objs o).state
      (samplesOf (attach o I Q s0) o (rds.take n)) = true := by
    rw [hst]
    apply noDiagonal_append_left _ (samplesOf (attach o I Q s0) o (rds.drop n))
    rw [← samplesOf_append, List.take_append_drop]
    exact hnd
  have hph := foldl_sampled_phase (samplesOf (attach o I Q s0) o (rds.take n))
    ((attach o I Q s0).objs o) (by rw [hst]; decide) (by rw [hst, hk]; rfl) hnd1
  rw [← h5] at hph
  refine ⟨s1, h1, hph, ?_⟩
  intro h0
  rw [hph, h0]; rfl

/-- C17 on an encoder attached in the initial state and sampled at 1, 3, 1, 0, 2: the
run is defined, the state ends at 2 and the counter at -1, which is 3 = phi(2) modulo 4. -/
theorem phase_invariant_witness :
    WF (init zeroObjs) ∧
    samplesOf (attach 0 2 3 (init zeroObjs)) 0
      [linesAt 1, linesAt 3, linesAt 1, linesAt 0, linesAt 2] = [1, 3, 1, 0, 2] ∧
    ∃ s1, run ([linesAt 1, linesAt 3, linesAt 1, linesAt 0, linesAt 2].map Op.tick)
        (attach 0 2 3 (init zeroObjs)) = some s1 ∧
      (s1.objs 0).encoderCounter % 4 = phi (s1.objs 0).state := by
  obtain ⟨_, _, s1, h1, h2, _⟩ := phase_invariant (init zeroObjs) 0 2 3
    [linesAt 1, linesAt 3, linesAt 1, linesAt 0, linesAt 2] 5 (WF_init zeroObjs) (by decide)
  exact ⟨WF_init zeroObjs, by decide, s1, h1, h2⟩

/-- C18: the table is antisymmetric on the pairs of 2-bit states that are not diagonal
(`encref[c][p] = -encref[p][c]` when c is not 3 - p) and holds 128 both ways on the
diagonal pairs.  Take an attached encoder with a 16-bit counter k and stored state s0, a
run of ticks in which it samples s1, ..., sn without diagonal transitions, and a second run
of ticks in which it samples the way back s(n-1), ..., s0.  Both runs are defined; the
first adds the sum of the table entries along the path to the counter in 16-bit arithmetic,
the second adds the sum along the way back, which is the negation of the first sum; after
both the counter is k again and the state s0. -/
theorem direction_symmetry (s : Sys) (o : Nat) (rdsOut rdsBack : List (Nat → Nat → Bool))
    (h : WF s) (hslot : slotsOf s o ≠ [])
    (hk : -32768 ≤ (s.objs o).encoderCounter ∧ (s.objs o).encoderCounter ≤ 32767)
    (hnd : noDiagonal (s.objs o).state (samplesOf s o rdsOut) = true)
    (hback : samplesOf s o rdsBack = backPath (s.objs o).state (samplesOf s o rdsOut)) :
    (∀ p c, p < 4 → c < 4 → c ≠ 3 - p →
      ∃ d, encref p c = some d ∧ encref c p = some (-d)) ∧
    (∀ p, p < 4 → encref p (3 - p) = some 128 ∧ encref (3 - p) p = some 128) ∧
    ∃ s1 s2, run (rdsOut.map Op.tick) s = some s1 ∧
      run (rdsBack.map Op.tick) s1 = some s2 ∧
      run ((rdsOut ++ rdsBack).map Op.tick) s = some s2 ∧
      samplesOf s1 o rdsBack = samplesOf s o rdsBack ∧
      (s1.objs o).encoderCounter =
        toInt16 ((s.objs o).encoderCounter +
          pathDelta ((s.objs o).state :: samplesOf s o rdsOut)) ∧
      (s2.objs o).encoderCounter =
        toInt16 ((s1.objs o).encoderCounter +
          pathDelta ((s1.objs o).state :: samplesOf s o rdsBack)) ∧
      pathDelta ((s1.objs o).state :: samplesOf s o rdsBack) =
        -pathDelta ((s.objs o).state :: samplesOf s o rdsOut) ∧
      (s2.objs o).encoderCounter = (s.objs o).encoderCounter ∧
      (s2.objs o).state = (s.objs o).state := by
  refine ⟨?_, ?_, ?_⟩
  · intro p c hp1 hc1 hne
    obtain ⟨d, hd⟩ := encref_isSome p c hp1 hc1
    obtain ⟨d2, hd2⟩ := encref_isSome c p hc1 hp1
    have ha := encref_antisymm p c hp1 hc1 hne
    rw [hd, hd2] at ha
    simp only [Option.getD_some] at ha
    exact ⟨d, hd, by rw [hd2, ha]⟩
  · intro p hp1
    interval_cases p <;> exact ⟨rfl, rfl⟩
  · obtain ⟨i, hi⟩ := List.exists_mem_of_ne_nil _ hslot
    have hp : (s.objs o).state < 4 := state_lt_of_slot s h o i hi
    obtain ⟨s1, hr1, hwf1, _, _, ho1⟩ := run_ticks_obj o rdsOut s h
    obtain ⟨s2, hr2, _, _, _, ho2⟩ := run_ticks_obj o rdsBack s1 hwf1
    have hsame := samplesOf_after o rdsOut rdsBack s s1 h hr1
    obtain ⟨f1, f2, f3, f4, _, f6, f7⟩ :=
      foldl_out_and_back (s.objs o) (samplesOf s o rdsOut) hp hk hnd
    have hst1 : (s1.objs o).state = (samplesOf s o rdsOut).getLastD (s.objs o).state := by
      rw [ho1]; exact f2
    have hk1 : -32768 ≤ (s1.objs o).encoderCounter ∧ (s1.objs o).encoderCounter ≤ 32767 := by
      rw [ho1, f1]; exact toInt16_range _
    have hfold : s2.objs o =
        (samplesOf s o rdsOut ++ backPath (s.objs o).state (samplesOf s o rdsOut)).foldl
          sampled (s.objs o) := by
      rw [ho2, hsame, hback, ho1, List.foldl_append]
    refine ⟨s1, s2, hr1, hr2, ?_, hsame, by rw [ho1]; exact f1, ?_, ?_, ?_, ?_⟩
    · rw [List.map_append, run_append _ _ s s1 hr1]; exact hr2
    · rw [ho2, hsame, hback]
      exact f3 (s1.objs o) hst1 hk1
    · rw [hback, hst1]; exact f4
    · rw [hfold]; exact f6
    · rw [hfold]; exact f7

/-- C18 on an encoder attached in the initial state: it samples 1, 3, 2, 2, 3 on the way
out (sum 1 + 1 + 1 + 0 - 1 = 2) and 2, 2, 3, 1, 0 on the way back (sum -2), and ends with
counter 0 and state 0 as it began. -/
theorem direction_symmetry_witness :
    WF (attach 0 2 3 (init zeroObjs)) ∧
    samplesOf (attach 0 2 3 (init zeroObjs)) 0
      [linesAt 1, linesAt 3, linesAt 2, linesAt 2, linesAt 3] = [1, 3, 2, 2, 3] ∧
    samplesOf (attach 0 2 3 (init zeroObjs)) 0
      [linesAt 2, linesAt 2, linesAt 3, linesAt 1, linesAt 0] = [2, 2, 3, 1, 0] ∧
    backPath 0 [1, 3, 2, 2, 3] = [2, 2, 3, 1, 0] ∧
    pathDelta [0, 1, 3, 2, 2, 3] = 2 ∧
    ∃ s2, run (([linesAt 1, linesAt 3, linesAt 2, linesAt 2, linesAt 3] ++
        [linesAt 2, linesAt 2, linesAt 3, linesAt 1, linesAt 0]).map Op.tick)
        (attach 0 2 3 (init zeroObjs)) = some s2 ∧
      (s2.objs 0).encoderCounter = 0 ∧ (s2.objs 0).state = 0 := by
  have hwf : WF (attach 0 2 3 (init zeroObjs)) := by decide
  obtain ⟨_, _, s1, s2, _, _, h3, _, _, _, _, h8, h9⟩ :=
    direction_symmetry (attach 0 2 3 (init zeroObjs)) 0
      [linesAt 1, linesAt 3, linesAt 2, linesAt 2, linesAt 3]
      [linesAt 2, linesAt 2, linesAt 3, linesAt 1, linesAt 0]
      hwf (by decide) (by decide) (by decide) (by decide)
  exact ⟨hwf, by decide, by decide, by decide, by decide, s2, h3,
    by rw [h8]; decide, by rw [h9]; decide⟩

/-! ## Lemmas on the conversion to `int` -/

theorem floatToInt_intCast (k : Int) (h1 : -32768 ≤ k) (h2 : k ≤ 32767) :
    floatToInt (k : ℚ) = some k := by
  unfold floatToInt
  simp only [Int.floor_intCast, Int.ceil_intCast, ite_self, h1, h2, and_self, if_true]

theorem rne_eq (x : ℚ) (m : Int) (h : |x - m| < 1 / 2) : rne x = m := by
  rw [abs_lt] at h
  unfold rne
  by_cases hx : (m : ℚ) ≤ x
  · have hf : ⌊x⌋ = m := Int.floor_eq_iff.2 ⟨hx, by linarith⟩
    simp only [hf]
    rw [if_pos (by linarith)]
  · have hf : ⌊x⌋ = m - 1 := Int.floor_eq_iff.2 ⟨by push_cast; linarith, by push_cast; linarith⟩
    simp only [hf]
    rw [if_neg (by push_cast; linarith), if_pos (by push_cast; linarith)]
    ring

theorem log_two_eq (r : ℚ) (e : Int) (h1 : (2 : ℚ) ^ e ≤ r) (h2 : r < (2 : ℚ) ^ (e + 1)) :
    Int.log 2 r = e := by
  have hr : 0 < r := lt_of_lt_of_le (by positivity) h1
  have a := (Int.zpow_le_iff_le_log (b := 2) (by decide) hr).1 (by exact_mod_cast h1)
  have b := (Int.lt_zpow_iff_log_lt (b := 2) (by decide) hr).1 (by exact_mod_cast h2)
  omega

/-- The rounded value, from the exponent and the significand. -/
theorem roundF32_eq (q : ℚ) (e m : Int) (he : -126 ≤ e) (h1 : (2 : ℚ) ^ e ≤ |q|)
    (h2 : |q| < (2 : ℚ) ^ (e + 1)) (hm : |q / (2 : ℚ) ^ (e - 23) - m| < 1 / 2) :
    roundF32 q = (m : ℚ) * (2 : ℚ) ^ (e - 23) := by
  unfold roundF32
  rw [log_two_eq |q| e h1 h2, max_eq_left he]
  dsimp only
  rw [rne_eq _ m hm]

theorem roundF32_zero : roundF32 0 = 0 := by
  unfold roundF32
  have : rne (0 / (2 : ℚ) ^ (max (Int.log 2 |(0 : ℚ)|) (-126) - 23)) = 0 := by
    rw [zero_div]; exact rne_eq 0 0 (by norm_num)
  simp only [this, Int.cast_zero, zero_mul]

/-- Integers below 2^24 in absolute value are values of the format. -/
theorem roundF32_int (n : Int) (hn : |n| < 2 ^ 24) : roundF32 (n : ℚ) = n := by
  by_cases h0 : n = 0
  · subst h0; simpa using roundF32_zero
  have habs : (1 : ℚ) ≤ |(n : ℚ)| := by
    have : (1 : Int) ≤ |n| := Int.one_le_abs h0
    exact_mod_cast this
  have hpos : 0 < |(n : ℚ)| := lt_of_lt_of_le one_pos habs
  have hlt : |(n : ℚ)| < (2 : ℚ) ^ (24 : ℤ) := by
    have : ((|n| : Int) : ℚ) < ((2 ^ 24 : Int) : ℚ) := by exact_mod_cast hn
    rw [Int.cast_abs] at this
    calc |(n : ℚ)| < ((2 ^ 24 : Int) : ℚ) := this
      _ = (2 : ℚ) ^ (24 : ℤ) := by norm_num
  have hL0 : 0 ≤ Int.log 2 |(n : ℚ)| :=
    (Int.zpow_le_iff_le_log (b := 2) (by decide) hpos).1 (by simpa using habs)
  have hL1 : Int.log 2 |(n : ℚ)| < 24 :=
    (Int.lt_zpow_iff_log_lt (b := 2) (by decide) hpos).1 (by exact_mod_cast hlt)
  have hlow : (2 : ℚ) ^ (Int.log 2 |(n : ℚ)|) ≤ |(n : ℚ)| := by
    have := Int.zpow_log_le_self (b := 2) (r := |(n : ℚ)|) (by decide) hpos
    exact_mod_cast this
  have hhigh : |(n : ℚ)| < (2 : ℚ) ^ (Int.log 2 |(n : ℚ)| + 1) := by
    have := Int.lt_zpow_succ_log_self (b := 2) (by decide) (|(n : ℚ)|)
    exact_mod_cast this
  generalize Int.log 2 |(n : ℚ)| = L at hL0 hL1 hlow hhigh
  obtain ⟨j, hj⟩ : ∃ j : ℕ, (23 : ℤ) - L = j := ⟨(23 - L).toNat, by omega⟩
  have hu : (2 : ℚ) ^ (L - 23) = ((2 : ℚ) ^ j)⁻¹ := by
    have : L - 23 = -(j : ℤ) := by omega
    rw [this, zpow_neg, zpow_natCast]
  have hm : (n : ℚ) / (2 : ℚ) ^ (L - 23) = ((n * 2 ^ j : Int) : ℚ) := by
    rw [hu]; push_cast; field_simp
  rw [roundF32_eq (n : ℚ) L (n * 2 ^ j) (by omega) hlow hhigh (by rw [hm]; simp), hu]
  push_cast
  field_simp

theorem roundF32_half : roundF32 (1 / 2) = 1 / 2 := by
  rw [roundF32_eq (1 / 2) (-1) 8388608 (by decide) (by norm_num [abs_of_pos])
    (by norm_num [abs_of_pos]) (by norm_num [abs_lt])]
  norm_num

theorem setDegrees_180 (e : IQencoder) :
    setDegrees 180 e = some { e with encoderCounter := 1200 } := by
  have hrev : (STATES_PER_REV : ℚ) = 2400 := by unfold STATES_PER_REV; norm_num
  have h180 : roundF32 180 = 180 := by
    have := roundF32_int 180 (by decide)
    simpa using this
  have h1200 : roundF32 1200 = ((1200 : Int) : ℚ) := by
    have := roundF32_int 1200 (by decide)
    simpa using this
  unfold setDegrees
  dsimp only
  rw [hrev, h180]
  have hq : (180 : ℚ) / 360 = 1 / 2 := by norm_num
  rw [hq, roundF32_half]
  have hp : (1 : ℚ) / 2 * 2400 = 1200 := by norm_num
  rw [hp, h1200, floatToInt_intCast 1200 (by decide) (by decide)]
  rfl

/-- With every operation rounded, the product that `setRadians` truncates at the
argument `M_PI` is 4800 as well: the quotient is 1 and the two products are integers. -/
theorem setRadians_pi_rounded (M_PI : ℚ) (hpi : M_PI ≠ 0) :
    roundF32 (roundF32 (roundF32 (M_PI / M_PI) * 2) * 2400) = 4800 := by
  have h1 : roundF32 1 = 1 := by
    have := roundF32_int 1 (by decide)
    simpa using this
  have h2 : roundF32 2 = 2 := by
    have := roundF32_int 2 (by decide)
    simpa using this
  have h3 : roundF32 4800 = 4800 := by
    have := roundF32_int 4800 (by decide)
    simpa using this
  rw [div_self hpi, h1, one_mul, h2]
  norm_num
  exact h3

/-- C14, the code at the failing input: for every nonzero value of `M_PI`, in exact
arithmetic `setRadians(M_PI)` stores (M_PI / M_PI * 2) * 2400 = 4800, not 1200, and
`getRadians` then returns 4 * M_PI, not M_PI; whereas `setDegrees(180)` stores 1200 and
`getRadians` on the count 1200 returns M_PI.  In general `getRadians` after
`setRadians(r)` returns 4 * r when r / M_PI * 4800 is a 16-bit whole number of edges. -/
theorem setRadians_pi_stores_4800 (M_PI : ℚ) (hpi : M_PI ≠ 0) (e : IQencoder) :
    setRadians M_PI M_PI e = some { e with encoderCounter := 4800 } ∧
    getRadians M_PI { e with encoderCounter := 4800 } = 4 * M_PI ∧
    setDegrees 180 e = some { e with encoderCounter := 1200 } ∧
    getRadians M_PI { e with encoderCounter := 1200 } = M_PI ∧
    (∀ (r : ℚ) (k : Int), -32768 ≤ k → k ≤ 32767 → r / M_PI * 2 * 2400 = k →
      setRadians M_PI r e = some { e with encoderCounter := k } ∧
      getRadians M_PI { e with encoderCounter := k } = 4 * r) := by
  have hrev : (STATES_PER_REV : ℚ) = 2400 := by unfold STATES_PER_REV; norm_num
  refine ⟨?_, ?_, ?_, ?_, ?_⟩
  · unfold setRadians
    have hx : M_PI / M_PI * 2 * (STATES_PER_REV : ℚ) = ((4800 : Int) : ℚ) := by
      rw [hrev, div_self hpi]; norm_num
    rw [hx, floatToInt_intCast 4800 (by decide) (by decide)]
    rfl
  · unfold getRadians; rw [hrev]; push_cast; ring
  · exact setDegrees_180 e
  · unfold getRadians; rw [hrev]; push_cast; ring
  · intro r k h1 h2 hk
    constructor
    · unfold setRadians
      rw [hrev, hk, floatToInt_intCast k h1 h2]
      rfl
    · unfold getRadians
      rw [hrev]
      show (k : ℚ) * M_PI * 2 / 2400 = 4 * r
      rw [← hk]
      field_simp
      ring

/-- C14 at the value of `M_PI` in `math.h` (3.14159265358979323846): `setRadians(M_PI)`
stores 4800. -/
theorem setRadians_pi_stores_4800_witness :
    (314159265358979323846 / 100000000000000000000 : ℚ) ≠ 0 ∧
    setRadians (314159265358979323846 / 100000000000000000000)
        (314159265358979323846 / 100000000000000000000) (zeroObjs 0) =
      some { encoderCounter := 4800, I_pin := 0, Q_pin := 0, state := 0 } := by
  have hne : (314159265358979323846 / 100000000000000000000 : ℚ) ≠ 0 := by norm_num
  exact ⟨hne, (setRadians_pi_stores_4800 _ hne (zeroObjs 0)).1⟩

end DzlEncoders
